import Mathlib

/-!
Verification of the JSONL record store and the output sanitizer of the
image/text QA editor (src/app.py) against its specification.

The Python code is shallowly embedded: strings are `List Char`, JSON values
are an inductive type with integer numbers (the records handled by the store
contain no floats), the regex substitutions of `sanitize_model_output` are
executed by a small backtracking engine with Python's priority semantics,
and the file-system effects of `write_jsonl` are a list of primitive
operations interpreted over an explicit file-system state.
-/

set_option maxRecDepth 40000

namespace Gallery

/-! ## Python string helpers -/

/-- Whitespace as matched by Python's str.strip and the re module's s-class
(Unicode whitespace: ASCII whitespace, the C1 spaces and the Unicode space
separators). -/
def pySpace (c : Char) : Bool :=
  c = ' ' || c = '\t' || c = '\n' || c = '\r' || c = '\x0b' || c = '\x0c' ||
  c = '\x1c' || c = '\x1d' || c = '\x1e' || c = '\x1f' || c = '\x85' ||
  c = '\xa0' || c = ' ' || (0x2000 ≤ c.toNat && c.toNat ≤ 0x200a) ||
  c = ' ' || c = ' ' || c = ' ' || c = ' ' || c = '　'

/-- Embeds Python str.strip on a character list: drop Python whitespace from
both ends. -/
def pyStripL (l : List Char) : List Char :=
  ((l.dropWhile pySpace).reverse.dropWhile pySpace).reverse

/-- Space or tab, the class written between brackets in the cleanup patterns
of sanitize_model_output. -/
def isWT (c : Char) : Bool := c = ' ' || c = '\t'

/-! ## A small regex engine

Only the constructs used by the removal patterns of sanitize_model_output
are embedded: character classes, concatenation, alternation, option and a
greedy star of a character class.  `reMatches r s` lists the lengths of the
matches of `r` at the start of `s` in Python's backtracking priority order
(greedy quantifiers longest first, alternatives left to right), so its head
is the match Python's engine selects at that position. -/

inductive RE where
  | eps : RE
  | cls : (Char → Bool) → RE
  | seqR : RE → RE → RE
  | altR : RE → RE → RE
  | optR : RE → RE
  | starCls : (Char → Bool) → RE

def reMatches : RE → List Char → List Nat
  | .eps, _ => [0]
  | .cls _, [] => []
  | .cls p, c :: _ => if p c then [1] else []
  | .seqR a b, s =>
      (reMatches a s).flatMap (fun n => (reMatches b (s.drop n)).map (fun m => n + m))
  | .altR a b, s => reMatches a s ++ reMatches b s
  | .optR a, s => reMatches a s ++ [0]
  | .starCls p, s =>
      let k := (s.takeWhile p).length
      (List.range (k + 1)).map (fun i => k - i)

/-- Worker of reSub; the fuel argument makes the recursion structural and is
always at least the length of the list, so the exhaustion branch is never
taken. -/
def reSubGo (r : RE) (repl : List Char) : Nat → List Char → List Char
  | _, [] => []
  | 0, l => l
  | fuel + 1, c :: rest =>
    match (reMatches r (c :: rest)).head? with
    | some (n + 1) => repl ++ reSubGo r repl fuel (rest.drop n)
    | _ => c :: reSubGo r repl fuel rest

/-- Embeds re.sub(pattern, replacement, s) for the patterns of
sanitize_model_output: scan left to right, at each position take the
engine's first match (none of the embedded patterns matches the empty
string), emit the replacement and continue after the match, otherwise keep
the character and advance. -/
def reSub (r : RE) (repl : List Char) (l : List Char) : List Char :=
  reSubGo r repl l.length l

/-- Concatenation of a list of regexes. -/
def reCat (l : List RE) : RE := l.foldr RE.seqR RE.eps

/-- A literal character. -/
def reC (c : Char) : RE := RE.cls (fun x => x = c)

/-- A literal string. -/
def reL (s : String) : RE := reCat (s.data.map reC)

/-! ## The sanitizer (sanitize_model_output, src/app.py lines 116-157) -/

/-- Pattern (?i)s-star 作為一個?AI[^n。]*[。]? (the i-flag only affects the
letters A and I). -/
def pat1 : RE :=
  reCat [RE.starCls pySpace, reL "作為一", RE.optR (reL "個"),
    RE.cls (fun c => c = 'A' || c = 'a'), RE.cls (fun c => c = 'I' || c = 'i'),
    RE.starCls (fun c => !(c = '\n' || c = '。')), RE.optR (reC '。')]

/-- Pattern s-star 根據(本張)?圖片[^n。]*[。]? -/
def pat2 : RE :=
  reCat [RE.starCls pySpace, reL "根據", RE.optR (reL "本張"), reL "圖片",
    RE.starCls (fun c => !(c = '\n' || c = '。')), RE.optR (reC '。')]

/-- Pattern s-star 從(這張)?圖片(中)?(可以|能)?看(到|出)[^n。]*[。]? -/
def pat3 : RE :=
  reCat [RE.starCls pySpace, reL "從", RE.optR (reL "這張"), reL "圖片",
    RE.optR (reL "中"), RE.optR (RE.altR (reL "可以") (reL "能")), reL "看",
    RE.altR (reL "到") (reL "出"),
    RE.starCls (fun c => !(c = '\n' || c = '。')), RE.optR (reC '。')]

/-- Pattern s-star 根據(提供的)?文字(內容)?[^n。]*[。]? -/
def pat4 : RE :=
  reCat [RE.starCls pySpace, reL "根據", RE.optR (reL "提供的"), reL "文字",
    RE.optR (reL "內容"),
    RE.starCls (fun c => !(c = '\n' || c = '。')), RE.optR (reC '。')]

/-- Pattern s-star 依(據|照)提示[^n。]*[。]? -/
def pat5 : RE :=
  reCat [RE.starCls pySpace, reL "依", RE.altR (reL "據") (reL "照"), reL "提示",
    RE.starCls (fun c => !(c = '\n' || c = '。')), RE.optR (reC '。')]

/-- Pattern s-star 綜合(以上|上述)(資訊|內容)[^n。]*[。]? -/
def pat6 : RE :=
  reCat [RE.starCls pySpace, reL "綜合", RE.altR (reL "以上") (reL "上述"),
    RE.altR (reL "資訊") (reL "內容"),
    RE.starCls (fun c => !(c = '\n' || c = '。')), RE.optR (reC '。')]

/-- Pattern s-star 就(我|我們)所(知|見)[^n。]*[。]? -/
def pat7 : RE :=
  reCat [RE.starCls pySpace, reL "就", RE.altR (reL "我") (reL "我們"), reL "所",
    RE.altR (reL "知") (reL "見"),
    RE.starCls (fun c => !(c = '\n' || c = '。')), RE.optR (reC '。')]

/-- Pattern s-star 基於(題示|提供)[^n。]*[。]? -/
def pat8 : RE :=
  reCat [RE.starCls pySpace, reL "基於", RE.altR (reL "題示") (reL "提供"),
    RE.starCls (fun c => !(c = '\n' || c = '。')), RE.optR (reC '。')]

/-- The ordered pattern list patterns_remove of sanitize_model_output. -/
def patterns_remove : List RE := [pat1, pat2, pat3, pat4, pat5, pat6, pat7, pat8]

/-- Worker of strReplace, structurally recursive on a fuel that is always at
least the length of the list. -/
def strReplaceGo (pat repl : List Char) : Nat → List Char → List Char
  | _, [] => []
  | 0, l => l
  | fuel + 1, c :: rest =>
    if pat.isPrefixOf (c :: rest) then
      repl ++ strReplaceGo pat repl fuel (rest.drop (pat.length - 1))
    else
      c :: strReplaceGo pat repl fuel rest

/-- Embeds Python str.replace(pat, repl): replace all non-overlapping
occurrences left to right (all patterns used by the sanitizer are
non-empty). -/
def strReplace (pat repl : List Char) (l : List Char) : List Char :=
  strReplaceGo pat repl l.length l

/-- The ordered replacement mapping of sanitize_model_output (Python dicts
iterate in insertion order). -/
def replacements : List (List Char × List Char) :=
  [("總結來說，".data, "".data), ("總而言之，".data, "".data),
   ("整體來看，".data, "".data), ("整體而言，".data, "".data),
   ("一般而言，".data, "一般來說，".data), ("通常而言，".data, "通常來說，".data),
   ("我推測".data, "看起來".data), ("我認為".data, "看來".data),
   ("我猜測".data, "或許".data), ("可以看出".data, "看來".data),
   ("可以推斷".data, "多半".data), ("看起來像是".data, "看起來是".data)]

/-- Worker of collapseNl, structurally recursive on a fuel that is always at
least the length of the list. -/
def collapseNlGo : Nat → List Char → List Char
  | _, [] => []
  | 0, l => l
  | fuel + 1, c :: rest =>
    if c = '\n' then
      let k := (rest.takeWhile (fun d => d = '\n')).length
      if 3 ≤ k + 1 then '\n' :: '\n' :: collapseNlGo fuel (rest.drop k)
      else c :: collapseNlGo fuel rest
    else c :: collapseNlGo fuel rest

/-- Embeds re.sub of the pattern matching three or more newlines replaced by
two newlines: a maximal run of at least three newlines is replaced by
exactly two (the quantifier is greedy, so a matching run is consumed
whole). -/
def collapseNl (l : List Char) : List Char :=
  collapseNlGo l.length l

/-- Worker of stripWsBeforeNl, structurally recursive on a fuel that is
always at least the length of the list. -/
def stripWsBeforeNlGo : Nat → List Char → List Char
  | _, [] => []
  | 0, l => l
  | fuel + 1, c :: rest =>
    if isWT c then
      let k := (rest.takeWhile isWT).length
      match rest.drop k with
      | '\n' :: r2 => '\n' :: stripWsBeforeNlGo fuel r2
      | _ => c :: stripWsBeforeNlGo fuel rest
    else c :: stripWsBeforeNlGo fuel rest

/-- Embeds re.sub of the pattern matching one or more spaces or tabs
followed by a captured newline, replaced by that newline: at a space or
tab, if the maximal space-tab run is followed by a newline the run and the
newline match and are replaced by the newline (no shorter run can match,
being followed by another space or tab); otherwise no match starts at this
position and the scan advances. -/
def stripWsBeforeNl (l : List Char) : List Char :=
  stripWsBeforeNlGo l.length l

/-- The stage of sanitize_model_output that removes the forbidden leading
phrases (the for-loop over patterns_remove). -/
def applyRemovals (l : List Char) : List Char :=
  patterns_remove.foldl (fun acc p => reSub p [] acc) l

/-- The stage of sanitize_model_output that applies the phrase replacements
(the for-loop over replacements). -/
def applyReplacements (l : List Char) : List Char :=
  replacements.foldl (fun acc kv => strReplace kv.1 kv.2 acc) l

/-- Embeds sanitize_model_output (src/app.py lines 116-157): empty input is
returned unchanged; otherwise the removal patterns, the replacements, the
newline-run collapse, the strip of spaces and tabs before newlines and the
final whole-string strip are applied in order. -/
def sanitize_model_output (s : String) : String :=
  if s.data = [] then s
  else ⟨pyStripL (stripWsBeforeNl (collapseNl (applyReplacements (applyRemovals s.data))))⟩

/-! ## JSON values

The values handled by the store are embedded as an inductive type: numbers
are integers (the records of the dataset contain no floats; the parser
rejects fraction and exponent continuations), strings are character lists,
and objects are ordered key-value sequences, matching the insertion order
of Python dicts. -/

mutual
inductive Json where
  | null : Json
  | boolean : Bool → Json
  | num : Int → Json
  | str : List Char → Json
  | arr : JsonList → Json
  | obj : JsonObj → Json
  deriving DecidableEq
inductive JsonList where
  | nil : JsonList
  | cons : Json → JsonList → JsonList
  deriving DecidableEq
inductive JsonObj where
  | onil : JsonObj
  | ocons : List Char → Json → JsonObj → JsonObj
  deriving DecidableEq
end

def JsonList.toList : JsonList → List Json
  | .nil => []
  | .cons j tl => j :: tl.toList

def JsonList.ofList : List Json → JsonList
  | [] => .nil
  | j :: tl => .cons j (JsonList.ofList tl)

/-- Decimal digit to character. -/
def digitChar10 (d : Nat) : Char := Char.ofNat (48 + d)

/-- Worker of natDumps, structurally recursive on a fuel that is always at
least the number of digits. -/
def natDumpsGo : Nat → Nat → List Char
  | 0, _ => []
  | fuel + 1, n =>
    if n < 10 then [digitChar10 n]
    else natDumpsGo fuel (n / 10) ++ [digitChar10 (n % 10)]

/-- Decimal representation of a natural number, as produced by Python str. -/
def natDumps (n : Nat) : List Char := natDumpsGo (n + 1) n

/-- Decimal representation of an integer, as produced by Python str and used
by json.dumps for ints. -/
def intDumps : Int → List Char
  | .ofNat n => natDumps n
  | .negSucc m => '-' :: natDumps (m + 1)

/-- Lowercase hexadecimal digit, as emitted by json.dumps escapes. -/
def hexDigitChar (n : Nat) : Char :=
  if n < 10 then Char.ofNat (48 + n) else Char.ofNat (87 + n)

/-- Escape of one character inside a JSON string, as emitted by json.dumps
with ensure_ascii False: quote, backslash and the control characters are
escaped, everything else is emitted verbatim. -/
def escChar (c : Char) : List Char :=
  if c = '"' then ['\\', '"']
  else if c = '\\' then ['\\', '\\']
  else if c = '\n' then ['\\', 'n']
  else if c = '\r' then ['\\', 'r']
  else if c = '\t' then ['\\', 't']
  else if c = '\x08' then ['\\', 'b']
  else if c = '\x0c' then ['\\', 'f']
  else if c.toNat < 0x20 then
    ['\\', 'u', '0', '0', hexDigitChar (c.toNat / 16), hexDigitChar (c.toNat % 16)]
  else [c]

def jsonEscape (s : List Char) : List Char := s.flatMap escChar

/-! Serialization follows json.dumps with ensure_ascii False and the default
separators: items joined by comma-space, keys followed by colon-space. -/

mutual
def Json.dumps : Json → List Char
  | .null => "null".data
  | .boolean true => "true".data
  | .boolean false => "false".data
  | .num i => intDumps i
  | .str s => '"' :: (jsonEscape s ++ ['"'])
  | .arr l => '[' :: l.dumpsArr
  | .obj o => '\x7b' :: o.dumpsObj
def JsonList.dumpsArr : JsonList → List Char
  | .nil => [']']
  | .cons j .nil => j.dumps ++ [']']
  | .cons j (.cons j2 tl) => j.dumps ++ ',' :: ' ' :: (JsonList.cons j2 tl).dumpsArr
def JsonObj.dumpsObj : JsonObj → List Char
  | .onil => ['\x7d']
  | .ocons k v .onil => '"' :: (jsonEscape k ++ '"' :: ':' :: ' ' :: v.dumps) ++ ['\x7d']
  | .ocons k v (.ocons k2 v2 tl) =>
      '"' :: (jsonEscape k ++ '"' :: ':' :: ' ' :: v.dumps) ++
        ',' :: ' ' :: (JsonObj.ocons k2 v2 tl).dumpsObj
end

/-! ## A JSON parser (json.loads) -/

/-- JSON insignificant whitespace between tokens. -/
def jsonWsChar (c : Char) : Bool := c = ' ' || c = '\t' || c = '\n' || c = '\r'

def skipWs (l : List Char) : List Char := l.dropWhile jsonWsChar

/-- Value of a hexadecimal digit character. -/
def hexVal (c : Char) : Option Nat :=
  if 48 ≤ c.toNat ∧ c.toNat ≤ 57 then some (c.toNat - 48)
  else if 97 ≤ c.toNat ∧ c.toNat ≤ 102 then some (c.toNat - 87)
  else if 65 ≤ c.toNat ∧ c.toNat ≤ 70 then some (c.toNat - 55)
  else none

/-- Parses the body of a JSON string after the opening quote, returning the
decoded string and the input after the closing quote.  Escape sequences are
decoded; raw control characters are rejected (json.loads is strict by
default). -/
def parseStr : List Char → Option (List Char × List Char)
  | [] => none
  | c :: rest =>
    if c = '"' then some ([], rest)
    else if c = '\\' then
      match rest with
      | [] => none
      | e :: rest2 =>
        if e = '"' then (parseStr rest2).map (fun p => ('"' :: p.1, p.2))
        else if e = '\\' then (parseStr rest2).map (fun p => ('\\' :: p.1, p.2))
        else if e = '/' then (parseStr rest2).map (fun p => ('/' :: p.1, p.2))
        else if e = 'n' then (parseStr rest2).map (fun p => ('\n' :: p.1, p.2))
        else if e = 'r' then (parseStr rest2).map (fun p => ('\r' :: p.1, p.2))
        else if e = 't' then (parseStr rest2).map (fun p => ('\t' :: p.1, p.2))
        else if e = 'b' then (parseStr rest2).map (fun p => ('\x08' :: p.1, p.2))
        else if e = 'f' then (parseStr rest2).map (fun p => ('\x0c' :: p.1, p.2))
        else if e = 'u' then
          match rest2 with
          | h1 :: h2 :: h3 :: h4 :: rest3 =>
            match hexVal h1, hexVal h2, hexVal h3, hexVal h4 with
            | some a, some b, some c2, some d =>
              let code := ((a * 16 + b) * 16 + c2) * 16 + d
              if Nat.isValidChar code then
                (parseStr rest3).map (fun p => (Char.ofNat code :: p.1, p.2))
              else none
            | _, _, _, _ => none
          | _ => none
        else none
    else if c.toNat < 0x20 then none
    else (parseStr rest).map (fun p => (c :: p.1, p.2))

def isDigitCh (c : Char) : Bool := 48 ≤ c.toNat && c.toNat ≤ 57

def digitsToNat (ds : List Char) : Nat :=
  ds.foldl (fun a c => a * 10 + (c.toNat - 48)) 0

/-- Parses a run of decimal digits.  A following dot or exponent letter
would start a JSON float, which is outside this embedding (the records of
the store contain no floats); such inputs are modelled as parse failures. -/
def parseNatPart (l : List Char) : Option (Nat × List Char) :=
  let ds := l.takeWhile isDigitCh
  let rest := l.dropWhile isDigitCh
  if ds.isEmpty then none
  else
    match rest with
    | c :: _ => if c = '.' || c = 'e' || c = 'E' then none else some (digitsToNat ds, rest)
    | [] => some (digitsToNat ds, [])

def parseNum (l : List Char) : Option (Json × List Char) :=
  match l with
  | '-' :: r => (parseNatPart r).map (fun p => (Json.num (-(p.1 : Int)), p.2))
  | _ => (parseNatPart l).map (fun p => (Json.num (p.1 : Int), p.2))

mutual
def parseVal : Nat → List Char → Option (Json × List Char)
  | 0, _ => none
  | fuel + 1, l =>
    match skipWs l with
    | [] => none
    | c :: rest =>
      if c = '"' then (parseStr rest).map (fun p => (Json.str p.1, p.2))
      else if c = '[' then parseArrBody fuel rest
      else if c = '\x7b' then parseObjBody fuel rest
      else if c = 'n' then
        match rest with
        | 'u' :: 'l' :: 'l' :: r => some (Json.null, r)
        | _ => none
      else if c = 't' then
        match rest with
        | 'r' :: 'u' :: 'e' :: r => some (Json.boolean true, r)
        | _ => none
      else if c = 'f' then
        match rest with
        | 'a' :: 'l' :: 's' :: 'e' :: r => some (Json.boolean false, r)
        | _ => none
      else parseNum (c :: rest)
def parseArrBody : Nat → List Char → Option (Json × List Char)
  | 0, _ => none
  | fuel + 1, l =>
    match skipWs l with
    | ']' :: r => some (Json.arr JsonList.nil, r)
    | s => (parseArrItems fuel s).map (fun p => (Json.arr p.1, p.2))
def parseArrItems : Nat → List Char → Option (JsonList × List Char)
  | 0, _ => none
  | fuel + 1, l =>
    match parseVal fuel l with
    | none => none
    | some (j, r) =>
      match skipWs r with
      | ',' :: r2 =>
        match parseArrItems fuel r2 with
        | some (tl, r3) => some (JsonList.cons j tl, r3)
        | none => none
      | ']' :: r2 => some (JsonList.cons j JsonList.nil, r2)
      | _ => none
def parseObjBody : Nat → List Char → Option (Json × List Char)
  | 0, _ => none
  | fuel + 1, l =>
    match skipWs l with
    | '\x7d' :: r => some (Json.obj JsonObj.onil, r)
    | s => (parseObjItems fuel s).map (fun p => (Json.obj p.1, p.2))
def parseObjItems : Nat → List Char → Option (JsonObj × List Char)
  | 0, _ => none
  | fuel + 1, l =>
    match skipWs l with
    | '"' :: r =>
      match parseStr r with
      | none => none
      | some (k, r2) =>
        match skipWs r2 with
        | ':' :: r3 =>
          match parseVal fuel r3 with
          | none => none
          | some (v, r4) =>
            match skipWs r4 with
            | ',' :: r5 =>
              match parseObjItems fuel r5 with
              | some (tl, r6) => some (JsonObj.ocons k v tl, r6)
              | none => none
            | '\x7d' :: r5 => some (JsonObj.ocons k v JsonObj.onil, r5)
            | _ => none
        | _ => none
    | _ => none
end

/-- Embeds json.loads: parse one value and require that only whitespace
follows.  The fuel is sufficient for every value whose serialization fits
in the input (theorem Json.fuelSize_le_dumps below). -/
def loads (l : List Char) : Option Json :=
  match parseVal (4 * l.length + 4) l with
  | some (j, rest) => if skipWs rest = [] then some j else none
  | none => none

/-! ## The JSONL store (read_jsonl and write_jsonl, src/app.py 350-373) -/

/-- Splits file content at newlines; together with the per-line strip this
matches Python's line iteration over the file. -/
def splitNl : List Char → List (List Char)
  | [] => [[]]
  | c :: rest =>
    if c = '\n' then [] :: splitNl rest
    else
      match splitNl rest with
      | [] => [[c]]
      | h :: t => (c :: h) :: t

/-- Embeds read_jsonl: a missing file (none) loads as the empty list; each
line is stripped, blank lines are skipped, lines that fail to parse as JSON
are silently discarded. -/
def read_jsonl : Option (List Char) → List Json
  | none => []
  | some content =>
    (splitNl content).filterMap (fun ln =>
      let t := pyStripL ln
      if t.isEmpty then none else loads t)

/-- The file content produced by write_jsonl: every record serialized by
json.dumps on its own line, each line terminated by a newline. -/
def serializeItems (items : List Json) : List Char :=
  (items.map (fun j => j.dumps ++ ['\n'])).flatten

/-! ## File-system model for write_jsonl

The body of write_jsonl is straight-line code performing five system
effects; it is embedded as the list of those operations, interpreted over
an explicit file-system state, so that interruption after any prefix can be
reasoned about. -/

structure FS where
  files : List (String × List Char)
  dirs : List String
  locks : List String
  deriving DecidableEq

def lookupA (k : String) : List (String × List Char) → Option (List Char)
  | [] => none
  | (k2, v) :: t => if k2 = k then some v else lookupA k t

def setA (k : String) (v : List Char) : List (String × List Char) → List (String × List Char)
  | [] => [(k, v)]
  | (k2, v2) :: t => if k2 = k then (k2, v) :: t else (k2, v2) :: setA k v t

def eraseA (k : String) (l : List (String × List Char)) : List (String × List Char) :=
  l.filter (fun p => p.1 != k)

/-- Embeds os.path.dirname for the slash-separated paths used by the store
(the normalization done by os.path.abspath is not modelled: paths are taken
as given). -/
def dirname (p : String) : String :=
  String.mk (((p.data.reverse.dropWhile (fun c => c != '/')).drop 1).reverse)

/-- The directory write_jsonl creates, os.path.dirname(...) or "." (the
empty string is falsy in Python). -/
def dirOf (p : String) : String := if dirname p = "" then "." else dirname p

inductive FsOp where
  | makedirs : String → FsOp
  | lockAcquire : String → FsOp
  | writeFile : String → List Char → FsOp
  | rename : String → String → FsOp
  | lockRelease : String → FsOp
  deriving DecidableEq

/-- One file-system step.  makedirs with exist_ok succeeds always; opening a
file for writing requires its directory to exist and installs the content
under the file's path (at this operation granularity a partial write only
affects that path, never another); os.replace requires the source to exist
and atomically installs its content at the destination; the cooperative
lock acquire of filelock blocks rather than fails, so in this single-writer
model it records the lock, and release removes it. -/
def applyOp : FsOp → FS → Option FS
  | .makedirs d, fs =>
      some { fs with dirs := if d ∈ fs.dirs then fs.dirs else d :: fs.dirs }
  | .lockAcquire lp, fs =>
      some { fs with locks := if lp ∈ fs.locks then fs.locks else lp :: fs.locks }
  | .writeFile p c, fs =>
      if dirOf p ∈ fs.dirs then some { fs with files := setA p c fs.files }
      else none
  | .rename src dst, fs =>
      match lookupA src fs.files with
      | some c => some { fs with files := setA dst c (eraseA src fs.files) }
      | none => none
  | .lockRelease lp, fs =>
      some { fs with locks := fs.locks.filter (fun x => x != lp) }

def runOps : List FsOp → FS → Option FS
  | [], fs => some fs
  | op :: t, fs =>
    match applyOp op fs with
    | some fs2 => runOps t fs2
    | none => none

/-- Embeds write_jsonl (src/app.py lines 365-373) as its sequence of
file-system operations: create the missing parent directories, take the
cooperative file lock next to the destination, write the full serialization
to a temporary file in the same directory, atomically rename it over the
destination, release the lock. -/
def write_jsonl (path : String) (items : List Json) : List FsOp :=
  [FsOp.makedirs (dirOf path),
   FsOp.lockAcquire (path ++ ".lock"),
   FsOp.writeFile (path ++ ".tmp") (serializeItems items),
   FsOp.rename (path ++ ".tmp") path,
   FsOp.lockRelease (path ++ ".lock")]

/-! ## The in-memory store handlers (src/app.py 517-524, 575-600, 630-657)

Python error paths (a record that is not a dict, a messages value that is
not a list) are modelled as none; dict access follows Python dict
semantics: unique keys, insertion order, update in place. -/

/-- Python truthiness of an optional JSON value (item.get returns None for
an absent key, and None, false, zero, empty string, empty list and empty
dict are falsy). -/
def jsonTruthy : Option Json → Bool
  | none => false
  | some .null => false
  | some (.boolean b) => b
  | some (.num n) => if n = 0 then false else true
  | some (.str s) => !s.isEmpty
  | some (.arr .nil) => false
  | some (.arr _) => true
  | some (.obj .onil) => false
  | some (.obj _) => true

def JsonObj.get (k : List Char) : JsonObj → Option Json
  | .onil => none
  | .ocons k2 v tl => if k2 = k then some v else JsonObj.get k tl

def JsonObj.set (k : List Char) (v : Json) : JsonObj → JsonObj
  | .onil => .ocons k v .onil
  | .ocons k2 v2 tl => if k2 = k then .ocons k2 v tl else .ocons k2 v2 (JsonObj.set k v tl)

/-- Embeds item.get("messages", []) at a use that requires a list: an
absent key defaults to the empty list, a present non-list value makes the
Python handler raise. -/
def getMessagesList (o : JsonObj) : Option (List Json) :=
  match JsonObj.get "messages".data o with
  | none => some []
  | some (.arr l) => some l.toList
  | some _ => none

/-- A message turn as built by the save-draft handler: exactly the two keys
role and content, in that order. -/
def mkTurn (role content : List Char) : Json :=
  Json.obj (JsonObj.ocons "role".data (Json.str role)
    (JsonObj.ocons "content".data (Json.str content) JsonObj.onil))

/-- Embeds the save-draft click handler (src/app.py lines 575-600) on the
in-memory store: strip the draft question and answer; if either is empty,
warn and do nothing else (no mutation, no write).  Otherwise append the
turn pair to messages, set the top-level model field only when it is falsy,
set contributor to the logged-in user, store the record back and attempt
the write.  The returned flag records whether write_jsonl was invoked. -/
def saveDraftHandler (mdl : List Char) (user : Option (List Char))
    (draft_q draft_a : String) (items : List Json) (idx : Nat) :
    Option (List Json × Bool) :=
  let q := pyStripL draft_q.data
  let a := pyStripL draft_a.data
  if q.isEmpty || a.isEmpty then some (items, false)
  else
    match items[idx]? with
    | some (Json.obj o) =>
      match getMessagesList o with
      | some msgs =>
        let msgs2 := msgs ++ [mkTurn "user".data q, mkTurn "assistant".data a]
        let o1 := JsonObj.set "messages".data (Json.arr (JsonList.ofList msgs2)) o
        let o2 :=
          if jsonTruthy (JsonObj.get "model".data o1) then o1
          else JsonObj.set "model".data (Json.str mdl) o1
        let o3 :=
          match user with
          | some u => JsonObj.set "contributor".data (Json.str u) o2
          | none => o2
        some (items.set idx (Json.obj o3), true)
      | none => none
    | _ => none

/-- Embeds the report-mismatch click handler (src/app.py lines 517-524):
set contributor of the current record to the logged-in user and write. -/
def reportHandler (user : List Char) (items : List Json) (idx : Nat) :
    Option (List Json) :=
  match items[idx]? with
  | some (Json.obj o) =>
      some (items.set idx (Json.obj (JsonObj.set "contributor".data (Json.str user) o)))
  | _ => none

/-- Embeds the delete-pair click handler (src/app.py lines 630-640): copy
messages, delete the slice from i to i+2 (Python slice deletion clamps at
the end), store the record back and write. -/
def deletePairHandler (i : Nat) (items : List Json) (idx : Nat) :
    Option (List Json) :=
  match items[idx]? with
  | some (Json.obj o) =>
    match getMessagesList o with
    | some msgs =>
      let m2 := msgs.take i ++ msgs.drop (i + 2)
      some (items.set idx
        (Json.obj (JsonObj.set "messages".data (Json.arr (JsonList.ofList m2)) o)))
    | none => none
  | _ => none

/-- Assignment turn["content"] = value; a turn that is not a dict makes the
Python handler raise. -/
def setTurnContent (content : List Char) : Json → Option Json
  | Json.obj t => some (Json.obj (JsonObj.set "content".data (Json.str content) t))
  | _ => none

/-- Embeds the edit-pair click handler (src/app.py lines 643-657): strip the
edited question and answer, assign them into the content of the turns at
positions i and i+1 when those positions exist, store the record back and
write. -/
def editPairHandler (i : Nat) (q0 a0 : String) (items : List Json) (idx : Nat) :
    Option (List Json) :=
  let nq := pyStripL q0.data
  let na := pyStripL a0.data
  match items[idx]? with
  | some (Json.obj o) =>
    match JsonObj.get "messages".data o with
    | none => some (items.set idx (Json.obj o))
    | some (Json.arr l) =>
      let msgs := l.toList
      let step1 : Option (List Json) :=
        if h : i < msgs.length then
          match setTurnContent nq msgs[i] with
          | some t => some (msgs.set i t)
          | none => none
        else some msgs
      match step1 with
      | none => none
      | some m1 =>
        let step2 : Option (List Json) :=
          if h : i + 1 < m1.length then
            match setTurnContent na m1[i + 1] with
            | some t => some (m1.set (i + 1) t)
            | none => none
          else some m1
        match step2 with
        | none => none
        | some m2 =>
            some (items.set idx
              (Json.obj (JsonObj.set "messages".data (Json.arr (JsonList.ofList m2)) o)))
    | some _ => none
  | _ => none

/-! ## Auxiliary definitions used by the statements -/

/-- The value of the top-level model field of the record at a position of
the store. -/
def modelOf (items : List Json) (idx : Nat) : Option Json :=
  match items[idx]? with
  | some (Json.obj o) => JsonObj.get "model".data o
  | _ => none

/-- No space or tab immediately followed by a newline anywhere in the
list. -/
def noWsNl : List Char → Bool
  | c :: d :: rest => (!(isWT c && d = '\n')) && noWsNl (d :: rest)
  | _ => true

/-- Neither end of the list is Python whitespace. -/
def strippedEnds (l : List Char) : Bool :=
  (match l.head? with
   | some c => !pySpace c
   | none => true) &&
  (match l.getLast? with
   | some c => !pySpace c
   | none => true)

/-- Whether pat occurs as a contiguous substring of l. -/
def containsSub (pat : List Char) : List Char → Bool
  | [] => pat.isEmpty
  | c :: t => pat.isPrefixOf (c :: t) || containsSub pat t

/-- A follow set that cannot extend a just-parsed number: the head, if any,
is no digit, dot or exponent letter.  The separators and closers emitted by
json.dumps all satisfy it. -/
def NumSafe (rest : List Char) : Prop :=
  match rest.head? with
  | none => True
  | some c => isDigitCh c = false ∧ c ≠ '.' ∧ c ≠ 'e' ∧ c ≠ 'E'

/-! Fuel consumed by the parser on the serialization of a value (each
constructor of the parser's mutual recursion steps the fuel down once per
nesting level and once per item). -/

mutual
def Json.fuelSize : Json → Nat
  | .arr l => 2 + l.fuelSizeArr
  | .obj o => 2 + o.fuelSizeObj
  | _ => 1
def JsonList.fuelSizeArr : JsonList → Nat
  | .nil => 1
  | .cons j tl => 1 + j.fuelSize + tl.fuelSizeArr
def JsonObj.fuelSizeObj : JsonObj → Nat
  | .onil => 1
  | .ocons _ v tl => 1 + v.fuelSize + tl.fuelSizeObj
end

/-! ## Concrete instances used by the scenario claims -/

/-- Record 0 of the deletion scenario. -/
def recA : Json :=
  Json.obj (JsonObj.ocons "image_path".data (Json.str "a.jpg".data)
    (JsonObj.ocons "text".data (Json.str "T1".data)
      (JsonObj.ocons "messages".data (Json.arr JsonList.nil) JsonObj.onil)))

/-- Record 1 of the deletion scenario, one user/assistant pair. -/
def recB : Json :=
  Json.obj (JsonObj.ocons "image_path".data (Json.str "b.jpg".data)
    (JsonObj.ocons "text".data (Json.str "T2".data)
      (JsonObj.ocons "messages".data
        (Json.arr (JsonList.ofList [mkTurn "user".data "Q".data,
          mkTurn "assistant".data "A".data]))
        JsonObj.onil)))

/-- Record 1 after deleting its only pair. -/
def recBdel : Json :=
  Json.obj (JsonObj.ocons "image_path".data (Json.str "b.jpg".data)
    (JsonObj.ocons "text".data (Json.str "T2".data)
      (JsonObj.ocons "messages".data (Json.arr JsonList.nil) JsonObj.onil)))

/-- A record whose only turn carries an extra field beside role and
content. -/
def recTurnExtra : Json :=
  Json.obj (JsonObj.ocons "messages".data
    (Json.arr (JsonList.cons
      (Json.obj (JsonObj.ocons "role".data (Json.str "user".data)
        (JsonObj.ocons "content".data (Json.str "Q".data)
          (JsonObj.ocons "note".data (Json.str "x".data) JsonObj.onil))))
      JsonList.nil))
    JsonObj.onil)

/-- The same record with the turn normalized to role and content only, the
output the round-trip claim predicts. -/
def recTurnExtraNorm : Json :=
  Json.obj (JsonObj.ocons "messages".data
    (Json.arr (JsonList.cons (mkTurn "user".data "Q".data) JsonList.nil))
    JsonObj.onil)

/-- A record whose model field is present but is the empty string (falsy in
Python). -/
def recEmptyModel : Json :=
  Json.obj (JsonObj.ocons "model".data (Json.str "".data)
    (JsonObj.ocons "messages".data (Json.arr JsonList.nil) JsonObj.onil))

/-- A record whose model field is present and truthy. -/
def recHasModel : Json :=
  Json.obj (JsonObj.ocons "model".data (Json.str "old-model".data)
    (JsonObj.ocons "messages".data (Json.arr JsonList.nil) JsonObj.onil))

/-! ## Theorems -/

/-- C8: deleting the turn pair at position 0 of record 1 of the two-record
scenario store yields an empty messages list for record 1 and leaves
record 0 entirely unchanged. -/
theorem deletePair_frame :
    deletePairHandler 0 [recA, recB] 1 = some [recA, recBdel] := by decide

/-- C2 counterexample: the sanitizer is not idempotent.  Removing the first
matched clause of this input juxtaposes characters into a new match, which
only the second application removes. -/
theorem sanitize_not_idempotent_cex :
    sanitize_model_output (sanitize_model_output "根根據圖片X。據圖片Y。") ≠
      sanitize_model_output "根根據圖片X。據圖片Y。" := by decide

/-- C2 amended: the sanitizer is not idempotent; a removal pattern can
re-match the sanitizer's own output (deletion can juxtapose text into a new
occurrence of a forbidden clause), so there are strings on which a second
application changes the result again. -/
theorem sanitize_not_idempotent :
    ∃ x : String,
      sanitize_model_output (sanitize_model_output x) ≠ sanitize_model_output x :=
  ⟨"根根據圖片X。據圖片Y。", by decide⟩

/-- C6 counterexample: sanitizing the scenario input does not yield a string
ending in the claimed suffix; the removal pattern consumes everything up to
and including the sentence-ending period, so the whole sentence is
removed. -/
theorem sanitize_scenario_cex :
    sanitize_model_output "根據圖片這是一棵樹。" = "" ∧
      ("這是一棵樹。".data.isSuffixOf
        (sanitize_model_output "根據圖片這是一棵樹。").data) = false := by decide

/-- C6 amended: sanitizing the scenario input removes the matched clause
from the provenance marker through the sentence-ending period, which here
is the whole sentence, yielding the empty string; the forbidden clause is
absent from the output. -/
theorem sanitize_scenario_amended :
    sanitize_model_output "根據圖片這是一棵樹。" = "" ∧
      containsSub "根據圖片".data (sanitize_model_output "根據圖片這是一棵樹。").data = false := by decide

/-- C9 counterexample: the sanitizer's output can contain a run of three
newlines, because the strip of spaces and tabs before newlines runs after
the newline-run collapse and can merge two runs. -/
theorem sanitize_newline_run_cex :
    sanitize_model_output "a\n\n \nb" = "a\n\n\nb" ∧
      containsSub "\n\n\n".data (sanitize_model_output "a\n\n \nb").data = true := by
  decide

/-- C7 counterexample: a record whose model field is present but empty (a
falsy value) has it overwritten by the save-draft handler, so a present
model field is not always left unchanged. -/
theorem model_overwritten_cex :
    modelOf [recEmptyModel] 0 = some (Json.str "".data) ∧
      (saveDraftHandler "gpt-4o-mini".data (some "alice".data) "Q" "A"
          [recEmptyModel] 0).map (fun r => modelOf r.1 0) =
        some (some (Json.str "gpt-4o-mini".data)) ∧
      Json.str "gpt-4o-mini".data ≠ Json.str "".data := by decide

/-- C1 counterexample: saving a record whose turn carries an extra field
beside role and content preserves that field across the load-then-save
round trip; the claimed normalization of turns to exactly role and content
does not happen in write_jsonl, so the predicted normalized output is not
produced. -/
theorem roundtrip_turn_fields_cex :
    read_jsonl (some (serializeItems [recTurnExtra])) = [recTurnExtra] ∧
      recTurnExtra ≠ recTurnExtraNorm ∧
      read_jsonl (some (serializeItems [recTurnExtra])) ≠ [recTurnExtraNorm] := by
  decide

/-- C10: the save-draft handler rejects blank input atomically; if the
stripped draft question or the stripped draft answer is empty, the store is
returned unchanged and no write is attempted. -/
theorem saveDraft_blank_noop (mdl : List Char) (user : Option (List Char))
    (q a : String) (items : List Json) (idx : Nat)
    (h : pyStripL q.data = [] ∨ pyStripL a.data = []) :
    saveDraftHandler mdl user q a items idx = some (items, false) := by
  unfold saveDraftHandler
  rcases h with h | h <;> simp [h]

/-- C10 witness: a whitespace question is rejected without any change. -/
theorem saveDraft_blank_noop_witness :
    saveDraftHandler "m".data (some "alice".data) " " "ok" [recA] 0 =
      some ([recA], false) :=
  saveDraft_blank_noop "m".data (some "alice".data) " " "ok" [recA] 0
    (Or.inl (by decide))

/-! ### File-system lemmas and the write_jsonl claims -/

theorem lookupA_setA_eq (k : String) (v : List Char) (l : List (String × List Char)) :
    lookupA k (setA k v l) = some v := by
  induction l with
  | nil => simp [setA, lookupA]
  | cons p t ih =>
    obtain ⟨k2, v2⟩ := p
    by_cases h : k2 = k <;> simp [setA, lookupA, h, ih]

theorem lookupA_setA_ne (k k2 : String) (v : List Char) (l : List (String × List Char))
    (h : k2 ≠ k) : lookupA k (setA k2 v l) = lookupA k l := by
  induction l with
  | nil => simp [setA, lookupA, h]
  | cons p t ih =>
    obtain ⟨k3, v3⟩ := p
    by_cases h3 : k3 = k2
    · subst h3
      simp [setA, lookupA, h]
    · by_cases h4 : k3 = k
      · subst h4
        rw [setA, if_neg h3]
        simp [lookupA]
      · simp [setA, lookupA, h3, h4, ih]

theorem ne_append_ext (p e : String) (h : e.length ≠ 0) : p ≠ p ++ e := by
  intro hc
  have := congrArg String.length hc
  rw [String.length_append] at this
  omega

theorem dirname_append_tmp (p : String) : dirname (p ++ ".tmp") = dirname p := by
  unfold dirname
  rw [String.data_append]
  rw [List.reverse_append]
  have h4 : (".tmp".data.reverse) = ['p', 'm', 't', '.'] := by decide
  rw [h4]
  have h5 : List.dropWhile (fun c => c != '/') (['p', 'm', 't', '.'] ++ p.data.reverse) =
      List.dropWhile (fun c => c != '/') p.data.reverse := by
    show List.dropWhile _ ('p' :: 'm' :: 't' :: '.' :: p.data.reverse) = _
    rw [List.dropWhile_cons, if_pos (by decide), List.dropWhile_cons, if_pos (by decide),
      List.dropWhile_cons, if_pos (by decide), List.dropWhile_cons, if_pos (by decide)]
  rw [h5]

theorem dirOf_append_tmp (p : String) : dirOf (p ++ ".tmp") = dirOf p := by
  unfold dirOf
  rw [dirname_append_tmp]

/-- C3: write_jsonl is atomic with respect to the destination: executing any
prefix of its operations that stops before the rename leaves the content at
the destination path byte-identical to its pre-save content, and after any
prefix whatsoever the destination holds either its original content or the
complete new serialization, never a partial one. -/
theorem write_jsonl_atomic (path : String) (items : List Json) (fs fs2 : FS) (k : Nat)
    (hrun : runOps ((write_jsonl path items).take k) fs = some fs2) :
    (k ≤ 3 → lookupA path fs2.files = lookupA path fs.files) ∧
    (lookupA path fs2.files = lookupA path fs.files ∨
      lookupA path fs2.files = some (serializeItems items)) := by
  have htmp : (path ++ ".tmp") ≠ path := Ne.symm (ne_append_ext path ".tmp" (by decide))
  have hw : dirOf (path ++ ".tmp") ∈
      (if dirOf path ∈ fs.dirs then fs.dirs else dirOf path :: fs.dirs) := by
    rw [dirOf_append_tmp]
    by_cases h : dirOf path ∈ fs.dirs <;> simp [h]
  match k with
  | 0 =>
    rw [show (write_jsonl path items).take 0 = [] from rfl] at hrun
    simp only [runOps, Option.some.injEq] at hrun
    subst hrun
    exact ⟨fun _ => rfl, Or.inl rfl⟩
  | 1 =>
    rw [show (write_jsonl path items).take 1 = [FsOp.makedirs (dirOf path)] from rfl] at hrun
    simp only [runOps, applyOp, Option.some.injEq] at hrun
    subst hrun
    exact ⟨fun _ => rfl, Or.inl rfl⟩
  | 2 =>
    rw [show (write_jsonl path items).take 2 =
      [FsOp.makedirs (dirOf path), FsOp.lockAcquire (path ++ ".lock")] from rfl] at hrun
    simp only [runOps, applyOp, Option.some.injEq] at hrun
    subst hrun
    exact ⟨fun _ => rfl, Or.inl rfl⟩
  | 3 =>
    rw [show (write_jsonl path items).take 3 =
      [FsOp.makedirs (dirOf path), FsOp.lockAcquire (path ++ ".lock"),
       FsOp.writeFile (path ++ ".tmp") (serializeItems items)] from rfl] at hrun
    simp only [runOps, applyOp] at hrun
    rw [if_pos hw] at hrun
    simp only [runOps, Option.some.injEq] at hrun
    subst hrun
    have hne : lookupA path (setA (path ++ ".tmp") (serializeItems items) fs.files) =
        lookupA path fs.files := lookupA_setA_ne _ _ _ _ htmp
    exact ⟨fun _ => hne, Or.inl hne⟩
  | 4 =>
    rw [show (write_jsonl path items).take 4 =
      [FsOp.makedirs (dirOf path), FsOp.lockAcquire (path ++ ".lock"),
       FsOp.writeFile (path ++ ".tmp") (serializeItems items),
       FsOp.rename (path ++ ".tmp") path] from rfl] at hrun
    simp only [runOps, applyOp] at hrun
    rw [if_pos hw] at hrun
    simp only [runOps, lookupA_setA_eq, Option.some.injEq] at hrun
    subst hrun
    refine ⟨fun hk => by omega, Or.inr ?_⟩
    exact lookupA_setA_eq _ _ _
  | (n + 5) =>
    rw [show (write_jsonl path items).take (n + 5) = write_jsonl path items from
      List.take_of_length_le (by simp [write_jsonl])] at hrun
    simp only [write_jsonl, runOps, applyOp] at hrun
    rw [if_pos hw] at hrun
    simp only [runOps, lookupA_setA_eq, Option.some.injEq] at hrun
    subst hrun
    refine ⟨fun hk => by omega, Or.inr ?_⟩
    exact lookupA_setA_eq _ _ _

/-- C3 witness: interrupting a save right before the rename (three of the
five steps executed) leaves the destination file untouched. -/
theorem write_jsonl_atomic_witness :
    lookupA "d/f"
        (FS.mk [("d/f", "x".data), ("d/f" ++ ".tmp", serializeItems ([] : List Json))]
          ["d"] ["d/f" ++ ".lock"]).files =
      lookupA "d/f" (FS.mk [("d/f", "x".data)] ["d"] []).files :=
  (write_jsonl_atomic "d/f" [] (FS.mk [("d/f", "x".data)] ["d"] [])
      (FS.mk [("d/f", "x".data), ("d/f" ++ ".tmp", serializeItems ([] : List Json))]
        ["d"] ["d/f" ++ ".lock"]) 3 (by decide)).1 (by decide)

/-- C5: write_jsonl consists, in order, of creating the missing parent
directory of the destination, acquiring the cooperative file lock, writing
every record as one JSON line to the temporary file, renaming the
temporary file over the destination, and releasing the lock after the
rename; executed from a state where the parent directory does not exist it
succeeds and the destination holds the full serialization, with the lock
released. -/
theorem write_jsonl_steps (path : String) (items : List Json) (fs : FS)
    (hdir : dirOf path ∉ fs.dirs) :
    write_jsonl path items =
      [FsOp.makedirs (dirOf path), FsOp.lockAcquire (path ++ ".lock"),
       FsOp.writeFile (path ++ ".tmp") (serializeItems items),
       FsOp.rename (path ++ ".tmp") path, FsOp.lockRelease (path ++ ".lock")] ∧
    ∃ fs2, runOps (write_jsonl path items) fs = some fs2 ∧
      lookupA path fs2.files = some (serializeItems items) ∧
      (path ++ ".lock") ∉ fs2.locks := by
  refine ⟨rfl, ?_⟩
  have hw : dirOf (path ++ ".tmp") ∈ dirOf path :: fs.dirs := by
    rw [dirOf_append_tmp]; exact List.mem_cons_self _ _
  simp only [write_jsonl, runOps, applyOp]
  rw [if_neg hdir, if_pos hw]
  simp only [runOps, lookupA_setA_eq]
  refine ⟨_, rfl, ?_, ?_⟩
  · exact lookupA_setA_eq _ _ _
  · intro hmem
    rw [List.mem_filter] at hmem
    simp at hmem

/-- C5 witness: saving to a path whose parent directory does not yet exist
succeeds and the destination holds the serialization. -/
theorem write_jsonl_steps_witness :
    ∃ fs2, runOps (write_jsonl "d/f" [Json.null]) (FS.mk [] [] []) = some fs2 ∧
      lookupA "d/f" fs2.files = some (serializeItems [Json.null]) ∧
      ("d/f" ++ ".lock") ∉ fs2.locks :=
  (write_jsonl_steps "d/f" [Json.null] (FS.mk [] [] []) (by decide)).2

/-! ### Dict lemmas and the model write-once claim -/

theorem jget_jset_eq (k : List Char) (v : Json) :
    (o : JsonObj) → JsonObj.get k (JsonObj.set k v o) = some v
  | .onil => by simp [JsonObj.set, JsonObj.get]
  | .ocons k2 v2 tl => by
    by_cases h : k2 = k <;>
      simp [JsonObj.set, JsonObj.get, h, jget_jset_eq k v tl]

theorem jget_jset_ne (k k2 : List Char) (v : Json) (h : k2 ≠ k) :
    (o : JsonObj) → JsonObj.get k (JsonObj.set k2 v o) = JsonObj.get k o
  | .onil => by simp [JsonObj.set, JsonObj.get, h]
  | .ocons k3 v3 tl => by
    by_cases h3 : k3 = k2
    · subst h3
      simp [JsonObj.set, JsonObj.get, h]
    · by_cases h4 : k3 = k
      · subst h4
        rw [JsonObj.set, if_neg h3]
        simp [JsonObj.get]
      · rw [JsonObj.set, if_neg h3]
        simp [JsonObj.get, h4, jget_jset_ne k k2 v h tl]

theorem modelOf_set_obj (items : List Json) (idx : Nat) (o o2 : JsonObj)
    (h : items[idx]? = some (Json.obj o))
    (hm : JsonObj.get "model".data o2 = JsonObj.get "model".data o) :
    modelOf (items.set idx (Json.obj o2)) idx = modelOf items idx := by
  have hlt : idx < items.length := (List.getElem?_eq_some.mp h).1
  unfold modelOf
  rw [List.getElem?_set]
  simp [hlt, h, hm]

/-- C7 amended: the save-draft handler assigns model exactly when the
present value is falsy (absent, or for instance an empty string, which the
counterexample shows is overwritten); when the record's model field holds a
truthy value, save-draft leaves it unchanged, and no other store mutation
(report, delete pair, edit pair) ever modifies the model field. -/
theorem model_write_once (mdl u : List Char) (user : Option (List Char))
    (q a q2 a2 : String) (items : List Json) (idx i : Nat) :
    (∀ res, saveDraftHandler mdl user q a items idx = some res →
      jsonTruthy (modelOf items idx) = true → modelOf res.1 idx = modelOf items idx) ∧
    (∀ res, reportHandler u items idx = some res →
      modelOf res idx = modelOf items idx) ∧
    (∀ res, deletePairHandler i items idx = some res →
      modelOf res idx = modelOf items idx) ∧
    (∀ res, editPairHandler i q2 a2 items idx = some res →
      modelOf res idx = modelOf items idx) := by
  have hmm : ("messages".data : List Char) ≠ "model".data := by decide
  have hcm : ("contributor".data : List Char) ≠ "model".data := by decide
  refine ⟨?_, ?_, ?_, ?_⟩
  · intro res hres htr
    simp only [saveDraftHandler] at hres
    split at hres
    · injection hres with h1
      subst h1
      rfl
    · split at hres
      · rename_i o heq
        split at hres
        · rename_i msgs hmsgs
          rw [jget_jset_ne _ _ _ hmm] at hres
          have hm0 : modelOf items idx = JsonObj.get "model".data o := by
            simp [modelOf, heq]
          rw [hm0] at htr
          cases user with
          | some u2 =>
            rw [if_pos htr] at hres
            injection hres with h1
            subst h1
            refine modelOf_set_obj items idx o _ heq ?_
            rw [jget_jset_ne _ _ _ hcm, jget_jset_ne _ _ _ hmm]
          | none =>
            rw [if_pos htr] at hres
            injection hres with h1
            subst h1
            refine modelOf_set_obj items idx o _ heq ?_
            rw [jget_jset_ne _ _ _ hmm]
        · exact Option.noConfusion hres
      · exact Option.noConfusion hres
  · intro res hres
    simp only [reportHandler] at hres
    split at hres
    · rename_i o heq
      injection hres with h1
      subst h1
      refine modelOf_set_obj items idx o _ heq ?_
      rw [jget_jset_ne _ _ _ hcm]
    · exact Option.noConfusion hres
  · intro res hres
    simp only [deletePairHandler] at hres
    split at hres
    · rename_i o heq
      split at hres
      · rename_i msgs hmsgs
        injection hres with h1
        subst h1
        refine modelOf_set_obj items idx o _ heq ?_
        rw [jget_jset_ne _ _ _ hmm]
      · exact Option.noConfusion hres
    · exact Option.noConfusion hres
  · intro res hres
    simp only [editPairHandler] at hres
    split at hres
    · rename_i o heq
      split at hres
      · injection hres with h1
        subst h1
        exact modelOf_set_obj items idx o o heq rfl
      · rename_i l hl
        split at hres
        all_goals try exact Option.noConfusion hres
        split at hres
        all_goals try exact Option.noConfusion hres
        injection hres with h1
        subst h1
        exact modelOf_set_obj items idx o _ heq (jget_jset_ne _ _ _ hmm _)
      · exact Option.noConfusion hres
    · exact Option.noConfusion hres

/-- C7 amended witness: a record with a truthy model keeps it across a
save-draft. -/
theorem model_write_once_witness :
    modelOf ((saveDraftHandler "gpt-4o-mini".data (some "alice".data) "Q" "A"
        [recHasModel] 0).getD ([], false)).1 0 = modelOf [recHasModel] 0 :=
  (model_write_once "gpt-4o-mini".data "alice".data (some "alice".data)
      "Q" "A" "x" "y" [recHasModel] 0 0).1
    ((saveDraftHandler "gpt-4o-mini".data (some "alice".data) "Q" "A"
        [recHasModel] 0).getD ([], false))
    (by decide) (by decide)

/-! ### Whitespace-cleanup lemmas and the cleanup claim -/

theorem noWsNl_cons (c : Char) (l : List Char)
    (h1 : ∀ d, l.head? = some d → (isWT c && (d = '\n')) = false)
    (h2 : noWsNl l = true) : noWsNl (c :: l) = true := by
  cases l with
  | nil => rfl
  | cons d t =>
    have hh := h1 d rfl
    simp only [noWsNl, Bool.and_eq_true]
    exact ⟨by simp [hh], h2⟩

theorem noWsNl_tail (c : Char) (l : List Char) (h : noWsNl (c :: l) = true) :
    noWsNl l = true := by
  cases l with
  | nil => rfl
  | cons d t =>
    simp only [noWsNl, Bool.and_eq_true] at h
    exact h.2

theorem noWsNl_dropWhile (p : Char → Bool) :
    ∀ l : List Char, noWsNl l = true → noWsNl (l.dropWhile p) = true
  | [] => fun h => h
  | c :: t => fun h => by
    rw [List.dropWhile_cons]
    by_cases hp : p c = true
    · simp only [hp, if_true]
      exact noWsNl_dropWhile p t (noWsNl_tail c t h)
    · simp only [hp, if_false, Bool.false_eq_true]
      exact h

theorem noWsNl_append_left :
    ∀ (l1 l2 : List Char), noWsNl (l1 ++ l2) = true → noWsNl l1 = true
  | [], _, _ => rfl
  | [_], _, _ => rfl
  | c :: d :: t, l2, h => by
    simp only [List.cons_append] at h
    simp only [noWsNl, Bool.and_eq_true] at h ⊢
    exact ⟨h.1, noWsNl_append_left (d :: t) l2 h.2⟩

theorem noWsNl_pyStripL (l : List Char) (h : noWsNl l = true) :
    noWsNl (pyStripL l) = true := by
  unfold pyStripL
  have hA : noWsNl (l.dropWhile pySpace) = true := noWsNl_dropWhile pySpace l h
  obtain ⟨t, ht⟩ :=
    List.dropWhile_suffix (l := (l.dropWhile pySpace).reverse) pySpace
  have hA2 : l.dropWhile pySpace =
      ((l.dropWhile pySpace).reverse.dropWhile pySpace).reverse ++ t.reverse := by
    have h2 := congrArg List.reverse ht
    simpa [List.reverse_append] using h2.symm
  rw [hA2] at hA
  exact noWsNl_append_left _ _ hA

theorem head?_dropWhile_false (p : Char → Bool) (l : List Char) (c : Char)
    (hc : (l.dropWhile p).head? = some c) : p c = false := by
  have h2 := List.head?_dropWhile_not p l
  rw [hc] at h2
  exact h2

theorem suffix_getLast? (l1 l2 : List Char) (h : l1 <:+ l2) (hne : l1 ≠ []) :
    l1.getLast? = l2.getLast? := by
  obtain ⟨t, rfl⟩ := h
  rw [List.getLast?_append]
  cases hgl : l1.getLast? with
  | none => exact absurd (List.getLast?_eq_none_iff.mp hgl) hne
  | some x => rfl

theorem strippedEnds_pyStripL (l : List Char) : strippedEnds (pyStripL l) = true := by
  unfold pyStripL strippedEnds
  rw [Bool.and_eq_true]
  refine ⟨?_, ?_⟩
  · rw [List.head?_reverse]
    cases hB : ((l.dropWhile pySpace).reverse.dropWhile pySpace) with
    | nil => simp
    | cons b bt =>
      have hsf := List.dropWhile_suffix (l := (l.dropWhile pySpace).reverse) pySpace
      have hgb : ((l.dropWhile pySpace).reverse.dropWhile pySpace).getLast? =
          ((l.dropWhile pySpace).reverse).getLast? :=
        suffix_getLast? _ _ hsf (by rw [hB]; exact List.cons_ne_nil _ _)
      rw [← hB, hgb, List.getLast?_reverse]
      cases hAh : (l.dropWhile pySpace).head? with
      | none => simp
      | some c =>
        have hc := head?_dropWhile_false pySpace l c hAh
        simp [hc]
  · rw [List.getLast?_reverse]
    cases hBh : ((l.dropWhile pySpace).reverse.dropWhile pySpace).head? with
    | none => simp
    | some c =>
      have hc := head?_dropWhile_false pySpace (l.dropWhile pySpace).reverse c hBh
      simp [hc]

theorem stripGo_head_ne_nl (fuel : Nat) (rest : List Char)
    (hlen : rest.length ≤ fuel)
    (hpre : (rest.drop ((rest.takeWhile isWT).length)).head? ≠ some '\n') :
    ∀ d, (stripWsBeforeNlGo fuel rest).head? = some d → d ≠ '\n' := by
  intro d hd
  match fuel, rest with
  | 0, rest =>
    have hnil : rest = [] := List.eq_nil_of_length_eq_zero (Nat.le_zero.mp hlen)
    subst hnil
    simp [stripWsBeforeNlGo] at hd
  | f + 1, [] => simp [stripWsBeforeNlGo] at hd
  | f + 1, e :: r2 =>
    by_cases hwt : isWT e = true
    · have hk : ((e :: r2).takeWhile isWT).length = (r2.takeWhile isWT).length + 1 := by
        rw [List.takeWhile_cons, if_pos hwt, List.length_cons]
      rw [hk, List.drop_succ_cons] at hpre
      simp only [stripWsBeforeNlGo, hwt, if_true] at hd
      cases hscr : r2.drop ((r2.takeWhile isWT).length) with
      | nil =>
        rw [hscr] at hd
        simp only [List.head?_cons, Option.some.injEq] at hd
        subst hd
        intro hc
        rw [hc] at hwt
        exact absurd hwt (by decide)
      | cons g t =>
        rw [hscr] at hpre hd
        have hg : g ≠ '\n' := fun hg => hpre (by rw [hg]; rfl)
        split at hd
        · rename_i heq2
          exact absurd (congrArg List.head? heq2.symm) (by simpa using (Ne.symm hg))
        · simp only [List.head?_cons, Option.some.injEq] at hd
          subst hd
          intro hc
          rw [hc] at hwt
          exact absurd hwt (by decide)
    · have hk : ((e :: r2).takeWhile isWT).length = 0 := by
        rw [List.takeWhile_cons, if_neg hwt]
        rfl
      rw [hk, List.drop_zero] at hpre
      have he : e ≠ '\n' := fun hg => hpre (by rw [hg]; rfl)
      simp only [stripWsBeforeNlGo] at hd
      rw [if_neg hwt] at hd
      simp only [List.head?_cons, Option.some.injEq] at hd
      subst hd
      exact he

theorem stripGo_noWsNl :
    ∀ (fuel : Nat) (l : List Char), l.length ≤ fuel →
      noWsNl (stripWsBeforeNlGo fuel l) = true := by
  intro fuel
  induction fuel with
  | zero =>
    intro l hlen
    have hnil : l = [] := List.eq_nil_of_length_eq_zero (Nat.le_zero.mp hlen)
    subst hnil
    rfl
  | succ f ih =>
    intro l hlen
    cases l with
    | nil => rfl
    | cons c rest =>
      have hrl : rest.length ≤ f := by
        rw [List.length_cons] at hlen
        omega
      by_cases hwt : isWT c = true
      · simp only [stripWsBeforeNlGo, hwt, if_true]
        cases hscr : rest.drop ((rest.takeWhile isWT).length) with
        | nil =>
          refine noWsNl_cons c _ ?_ (ih rest hrl)
          intro d hd
          have hdn := stripGo_head_ne_nl f rest hrl (by rw [hscr]; simp) d hd
          simp [hdn]
        | cons g t =>
          by_cases hg : g = '\n'
          · subst hg
            have htl : t.length ≤ f := by
              have := congrArg List.length hscr
              rw [List.length_drop, List.length_cons] at this
              omega
            refine noWsNl_cons '\n' _ ?_ (ih t htl)
            intro d _
            simp [isWT]
          · split
            · rename_i heq2
              exact absurd (congrArg List.head? heq2.symm) (by simpa using (Ne.symm hg))
            · refine noWsNl_cons c _ ?_ (ih rest hrl)
              intro d hd
              have hdn := stripGo_head_ne_nl f rest hrl (by rw [hscr]; simpa using hg) d hd
              simp [hdn]
      · simp only [stripWsBeforeNlGo]
        rw [if_neg hwt]
        refine noWsNl_cons c _ ?_ (ih rest hrl)
        intro d _
        simp [hwt]

theorem stripWsBeforeNl_noWsNl (l : List Char) : noWsNl (stripWsBeforeNl l) = true :=
  stripGo_noWsNl l.length l le_rfl

theorem sanitize_data (s : String) (hd : s.data ≠ []) :
    (sanitize_model_output s).data =
      pyStripL (stripWsBeforeNl (collapseNl (applyReplacements (applyRemovals s.data)))) := by
  unfold sanitize_model_output
  rw [if_neg hd]

/-- C9 amended: the three cleanup transformations run in sequence (collapse
newline runs, strip spaces and tabs before newlines, strip the whole
string); for every non-empty input the output has no space or tab
immediately before a newline and no leading or trailing whitespace, but it
can contain a run of three newlines, because the second transformation runs
after the collapse and can merge two runs (see the counterexample). -/
theorem sanitize_cleanup (s : String) (h : s ≠ "") :
    noWsNl (sanitize_model_output s).data = true ∧
      strippedEnds (sanitize_model_output s).data = true := by
  have hd : s.data ≠ [] := fun hx => h (String.ext (hx.trans rfl))
  rw [sanitize_data s hd]
  exact ⟨noWsNl_pyStripL _ (stripWsBeforeNl_noWsNl _), strippedEnds_pyStripL _⟩

/-- C9 amended witness: the cleanup holds of a concrete non-empty input. -/
theorem sanitize_cleanup_witness :
    noWsNl (sanitize_model_output "a \nb").data = true ∧
      strippedEnds (sanitize_model_output "a \nb").data = true :=
  sanitize_cleanup "a \nb" (by decide)

/-! ### Parser round-trip, part 1: numbers -/

theorem digitChar10_isDigit : ∀ d, d < 10 → isDigitCh (digitChar10 d) = true := by decide

theorem digitChar10_toNat : ∀ d, d < 10 → (digitChar10 d).toNat = 48 + d := by decide

theorem hexVal_hexDigitChar : ∀ m, m < 16 → hexVal (hexDigitChar m) = some m := by decide

theorem natDumpsGo_fuel : ∀ (f1 : Nat), ∀ f2 n, n < f1 → n < f2 →
    natDumpsGo f1 n = natDumpsGo f2 n := by
  intro f1
  induction f1 with
  | zero => intro f2 n h1 _; omega
  | succ g ih =>
    intro f2 n h1 h2
    match f2, h2 with
    | h + 1, h2 =>
      simp only [natDumpsGo]
      by_cases hn : n < 10
      · simp [hn]
      · simp only [hn, if_false]
        rw [ih h (n / 10) (by omega) (by omega)]

theorem natDumps_eq (n : Nat) : natDumps n =
    if n < 10 then [digitChar10 n]
    else natDumps (n / 10) ++ [digitChar10 (n % 10)] := by
  by_cases hn : n < 10
  · rw [if_pos hn]
    unfold natDumps
    simp [natDumpsGo, hn]
  · rw [if_neg hn]
    show natDumpsGo (n + 1) n = natDumpsGo (n / 10 + 1) (n / 10) ++ [digitChar10 (n % 10)]
    rw [show natDumpsGo (n + 1) n = natDumpsGo n (n / 10) ++ [digitChar10 (n % 10)] from
      by simp [natDumpsGo, hn]]
    rw [natDumpsGo_fuel n (n / 10 + 1) (n / 10) (by omega) (by omega)]

theorem natDumps_digits (n : Nat) : ∀ c ∈ natDumps n, isDigitCh c = true := by
  induction n using Nat.strong_induction_on with
  | _ n ih =>
    rw [natDumps_eq]
    by_cases hn : n < 10
    · simp only [hn, if_true, List.mem_singleton]
      rintro c rfl
      exact digitChar10_isDigit n hn
    · simp only [hn, if_false, List.mem_append, List.mem_singleton]
      rintro c (hc | rfl)
      · exact ih (n / 10) (by omega) c hc
      · exact digitChar10_isDigit _ (Nat.mod_lt _ (by omega))

theorem natDumps_ne_nil (n : Nat) : natDumps n ≠ [] := by
  rw [natDumps_eq]
  by_cases hn : n < 10 <;> simp [hn]

theorem natDumps_head_digit (n : Nat) :
    ∃ d t, natDumps n = d :: t ∧ isDigitCh d = true := by
  cases hd : natDumps n with
  | nil => exact absurd hd (natDumps_ne_nil n)
  | cons d t =>
    refine ⟨d, t, rfl, ?_⟩
    exact natDumps_digits n d (by rw [hd]; exact List.mem_cons_self _ _)

theorem natDumps_foldl (n : Nat) : ∀ a : Nat,
    (natDumps n).foldl (fun a c => a * 10 + (c.toNat - 48)) a =
      a * 10 ^ (natDumps n).length + n := by
  induction n using Nat.strong_induction_on with
  | _ n ih =>
    intro a
    rw [natDumps_eq]
    by_cases hn : n < 10
    · simp only [hn, if_true, List.foldl_cons, List.foldl_nil, List.length_cons,
        List.length_nil]
      rw [digitChar10_toNat n hn]
      ring_nf
      omega
    · simp only [hn, if_false, List.foldl_append, List.foldl_cons, List.foldl_nil,
        List.length_append, List.length_cons, List.length_nil]
      rw [ih (n / 10) (by omega) a, digitChar10_toNat (n % 10) (Nat.mod_lt _ (by omega))]
      have hdm := Nat.div_add_mod n 10
      have hp : 10 ^ ((natDumps (n / 10)).length + (0 + 1)) =
          10 ^ (natDumps (n / 10)).length * 10 := by
        rw [pow_succ]
      rw [hp]
      ring_nf
      omega

theorem digitsToNat_natDumps (n : Nat) : digitsToNat (natDumps n) = n := by
  unfold digitsToNat
  rw [natDumps_foldl n 0]
  simp

theorem takeWhile_all_append (p : Char → Bool) :
    ∀ (A B : List Char), (∀ c ∈ A, p c = true) →
      (∀ c, B.head? = some c → p c = false) →
      (A ++ B).takeWhile p = A ∧ (A ++ B).dropWhile p = B := by
  intro A
  induction A with
  | nil =>
    intro B _ hB
    cases B with
    | nil => exact ⟨rfl, rfl⟩
    | cons b t =>
      rw [List.nil_append, List.takeWhile_cons, List.dropWhile_cons]
      simp [hB b rfl]
  | cons a A2 ih =>
    intro B hA hB
    have hpa : p a = true := hA a (List.mem_cons_self _ _)
    rw [List.cons_append, List.takeWhile_cons, List.dropWhile_cons]
    simp only [hpa, if_true]
    have hrec := ih B (fun c hc => hA c (List.mem_cons_of_mem _ hc)) hB
    rw [hrec.1, hrec.2]
    exact ⟨rfl, rfl⟩

theorem parseNatPart_natDumps (n : Nat) (rest : List Char) (hr : NumSafe rest) :
    parseNatPart (natDumps n ++ rest) = some (n, rest) := by
  have hhead : ∀ c, rest.head? = some c → isDigitCh c = false := by
    intro c hc
    unfold NumSafe at hr
    rw [hc] at hr
    exact hr.1
  have hsplit := takeWhile_all_append isDigitCh (natDumps n) rest
    (natDumps_digits n) hhead
  have hne : (natDumps n).isEmpty = false := by
    cases hd : natDumps n with
    | nil => exact absurd hd (natDumps_ne_nil n)
    | cons d t => rfl
  unfold parseNatPart
  simp only [hsplit.1, hsplit.2, hne, Bool.false_eq_true, if_false]
  cases rest with
  | nil =>
    show some (digitsToNat (natDumps n), ([] : List Char)) = some (n, [])
    rw [digitsToNat_natDumps]
  | cons c t =>
    unfold NumSafe at hr
    simp only [List.head?_cons] at hr
    show (if (decide (c = '.') || decide (c = 'e') || decide (c = 'E')) = true then none
      else some (digitsToNat (natDumps n), c :: t)) = some (n, c :: t)
    have hflags : (decide (c = '.') || decide (c = 'e') || decide (c = 'E')) = false := by
      simp [hr.2.1, hr.2.2.1, hr.2.2.2]
    rw [hflags]
    simp only [Bool.false_eq_true, if_false, digitsToNat_natDumps]

theorem isDigit_ne_dash (c : Char) (h : isDigitCh c = true) : c ≠ '-' := by
  rintro rfl
  exact absurd h (by decide)

theorem parseNum_intDumps (i : Int) (rest : List Char) (hr : NumSafe rest) :
    parseNum (intDumps i ++ rest) = some (Json.num i, rest) := by
  cases i with
  | ofNat n =>
    show parseNum (natDumps n ++ rest) = _
    obtain ⟨d, t, hd, hdig⟩ := natDumps_head_digit n
    rw [hd, List.cons_append]
    unfold parseNum
    split
    · rename_i r heq
      rw [List.cons_eq_cons] at heq
      exact absurd heq.1 (isDigit_ne_dash d hdig)
    · rw [← List.cons_append, ← hd, parseNatPart_natDumps n rest hr]
      rfl
  | negSucc m =>
    show parseNum ('-' :: (natDumps (m + 1) ++ rest)) = _
    rw [show parseNum ('-' :: (natDumps (m + 1) ++ rest)) =
      (parseNatPart (natDumps (m + 1) ++ rest)).map
        (fun p => (Json.num (-(p.1 : Int)), p.2)) from rfl]
    rw [parseNatPart_natDumps (m + 1) rest hr]
    show some (Json.num (-((m + 1 : Nat) : Int)), rest) = some (Json.num (Int.negSucc m), rest)
    rw [Int.negSucc_eq]
    norm_num

/-! ### Parser round-trip, part 2: strings -/

theorem parseStr_escape : ∀ (s rest : List Char),
    parseStr (jsonEscape s ++ '"' :: rest) = some (s, rest)
  | [], rest => by
    show parseStr ([] ++ '"' :: rest) = some ([], rest)
    rw [List.nil_append, parseStr.eq_def]
    simp
  | c :: s2, rest => by
    show parseStr ((escChar c ++ jsonEscape s2) ++ '"' :: rest) = some (c :: s2, rest)
    rw [List.append_assoc]
    by_cases h1 : c = '"'
    · subst h1
      rw [show escChar '"' = ['\\', '"'] from by decide]
      rw [List.cons_append, List.cons_append, List.nil_append, parseStr.eq_def]
      simp [parseStr_escape s2 rest]
    · by_cases h2 : c = '\\'
      · subst h2
        rw [show escChar '\\' = ['\\', '\\'] from by decide]
        rw [List.cons_append, List.cons_append, List.nil_append, parseStr.eq_def]
        simp [parseStr_escape s2 rest]
      · by_cases h3 : c = '\n'
        · subst h3
          rw [show escChar '\n' = ['\\', 'n'] from by decide]
          rw [List.cons_append, List.cons_append, List.nil_append, parseStr.eq_def]
          simp [parseStr_escape s2 rest]
        · by_cases h4 : c = '\r'
          · subst h4
            rw [show escChar '\r' = ['\\', 'r'] from by decide]
            rw [List.cons_append, List.cons_append, List.nil_append, parseStr.eq_def]
            simp [parseStr_escape s2 rest]
          · by_cases h5 : c = '\t'
            · subst h5
              rw [show escChar '\t' = ['\\', 't'] from by decide]
              rw [List.cons_append, List.cons_append, List.nil_append, parseStr.eq_def]
              simp [parseStr_escape s2 rest]
            · by_cases h6 : c = '\x08'
              · subst h6
                rw [show escChar '\x08' = ['\\', 'b'] from by decide]
                rw [List.cons_append, List.cons_append, List.nil_append, parseStr.eq_def]
                simp [parseStr_escape s2 rest]
              · by_cases h7 : c = '\x0c'
                · subst h7
                  rw [show escChar '\x0c' = ['\\', 'f'] from by decide]
                  rw [List.cons_append, List.cons_append, List.nil_append, parseStr.eq_def]
                  simp [parseStr_escape s2 rest]
                · by_cases hlt : c.toNat < 0x20
                  · have hesc : escChar c = ['\\', 'u', '0', '0',
                        hexDigitChar (c.toNat / 16), hexDigitChar (c.toNat % 16)] := by
                      unfold escChar
                      rw [if_neg h1, if_neg h2, if_neg h3, if_neg h4, if_neg h5,
                        if_neg h6, if_neg h7, if_pos hlt]
                    rw [hesc]
                    have hx1 : hexVal (hexDigitChar (c.toNat / 16)) = some (c.toNat / 16) :=
                      hexVal_hexDigitChar _ (by omega)
                    have hx2 : hexVal (hexDigitChar (c.toNat % 16)) = some (c.toNat % 16) :=
                      hexVal_hexDigitChar _ (by omega)
                    have hcode : ((0 * 16 + 0) * 16 + c.toNat / 16) * 16 + c.toNat % 16 =
                        c.toNat := by omega
                    have hv : Nat.isValidChar (((0 * 16 + 0) * 16 + c.toNat / 16) * 16 +
                        c.toNat % 16) := by
                      rw [hcode]
                      exact Or.inl (by omega)
                    simp only [List.cons_append, List.nil_append]
                    rw [parseStr.eq_def]
                    simp only [List.cons.injEq, reduceCtorEq, if_false, if_true]
                    simp [show hexVal '0' = some 0 from by decide, hx1, hx2, hv, hcode,
                      Char.ofNat_toNat, parseStr_escape s2 rest]
                    have hcode2 : c.toNat / 16 * 16 + c.toNat % 16 = c.toNat := by omega
                    rw [hcode2]
                    exact ⟨Or.inl (by omega), Char.ofNat_toNat c⟩
                  · have hesc : escChar c = [c] := by
                      unfold escChar
                      rw [if_neg h1, if_neg h2, if_neg h3, if_neg h4, if_neg h5,
                        if_neg h6, if_neg h7, if_neg hlt]
                    rw [hesc]
                    rw [List.cons_append, List.nil_append, parseStr.eq_def]
                    simp [h1, h2, hlt, parseStr_escape s2 rest]

/-! ### Parser round-trip, part 3: values -/

theorem isDigit_bounds (d : Char) (h : isDigitCh d = true) :
    48 ≤ d.toNat ∧ d.toNat ≤ 57 := by
  simpa [isDigitCh, Bool.and_eq_true, decide_eq_true_eq] using h

theorem isDigit_startOk (d : Char) (h : isDigitCh d = true) :
    jsonWsChar d = false ∧ d ≠ ']' ∧ d ≠ '\x7d' ∧ d ≠ ',' := by
  have hb := isDigit_bounds d h
  refine ⟨?_, ?_, ?_, ?_⟩
  · simp only [jsonWsChar, Bool.or_eq_false_iff, decide_eq_false_iff_not]
    refine ⟨⟨⟨?_, ?_⟩, ?_⟩, ?_⟩ <;> (rintro rfl; exact absurd hb (by decide))
  · rintro rfl; exact absurd hb (by decide)
  · rintro rfl; exact absurd hb (by decide)
  · rintro rfl; exact absurd hb (by decide)

theorem isDigit_dispatch (d : Char) (h : isDigitCh d = true) :
    d ≠ '"' ∧ d ≠ '[' ∧ d ≠ '\x7b' ∧ d ≠ 'n' ∧ d ≠ 't' ∧ d ≠ 'f' := by
  have hb := isDigit_bounds d h
  refine ⟨?_, ?_, ?_, ?_, ?_, ?_⟩ <;> (rintro rfl; exact absurd hb (by decide))

theorem skipWs_cons_false (c : Char) (l : List Char) (h : jsonWsChar c = false) :
    skipWs (c :: l) = c :: l := by
  unfold skipWs
  rw [List.dropWhile_cons]
  simp [h]

theorem skipWs_cons_true (c : Char) (l : List Char) (h : jsonWsChar c = true) :
    skipWs (c :: l) = skipWs l := by
  unfold skipWs
  rw [List.dropWhile_cons]
  simp [h]

theorem parseVal_ws (c : Char) (hc : jsonWsChar c = true) (f : Nat) (l : List Char) :
    parseVal f (c :: l) = parseVal f l := by
  cases f with
  | zero => simp [parseVal]
  | succ g =>
    simp only [parseVal]
    rw [skipWs_cons_true c l hc]

theorem parseArrItems_ws (c : Char) (hc : jsonWsChar c = true) (f : Nat) (l : List Char) :
    parseArrItems f (c :: l) = parseArrItems f l := by
  cases f with
  | zero => simp [parseArrItems]
  | succ g =>
    simp only [parseArrItems]
    rw [parseVal_ws c hc g l]

theorem parseObjItems_ws (c : Char) (hc : jsonWsChar c = true) (f : Nat) (l : List Char) :
    parseObjItems f (c :: l) = parseObjItems f l := by
  cases f with
  | zero => simp [parseObjItems]
  | succ g =>
    simp only [parseObjItems]
    rw [skipWs_cons_true c l hc]

theorem numSafe_of (c : Char) (rest : List Char) (h1 : isDigitCh c = false)
    (h2 : c ≠ '.') (h3 : c ≠ 'e') (h4 : c ≠ 'E') : NumSafe (c :: rest) :=
  ⟨h1, h2, h3, h4⟩

theorem numSafe_nil : NumSafe ([] : List Char) := trivial

theorem fuelSize_pos : ∀ j : Json, 1 ≤ j.fuelSize := by
  intro j
  cases j <;> simp [Json.fuelSize] <;> omega

theorem isDigit_pySpace (d : Char) (h : isDigitCh d = true) : pySpace d = false := by
  obtain ⟨hb1, hb2⟩ := isDigit_bounds d h
  have hofn := Char.ofNat_toNat d
  interval_cases hn : d.toNat <;> (rw [← hofn]; decide)

theorem dumps_startOk (j : Json) : ∃ c t, Json.dumps j = c :: t ∧
    jsonWsChar c = false ∧ c ≠ ']' ∧ c ≠ '\x7d' ∧ c ≠ ',' := by
  cases j with
  | null =>
    exact ⟨'n', ['u', 'l', 'l'], by decide, by decide, by decide, by decide, by decide⟩
  | boolean b =>
    cases b with
    | false =>
      exact ⟨'f', ['a', 'l', 's', 'e'], by decide, by decide, by decide, by decide,
        by decide⟩
    | true =>
      exact ⟨'t', ['r', 'u', 'e'], by decide, by decide, by decide, by decide, by decide⟩
  | num i =>
    cases i with
    | ofNat n =>
      obtain ⟨d, t, hd, hdig⟩ := natDumps_head_digit n
      have hso := isDigit_startOk d hdig
      exact ⟨d, t, by simp [Json.dumps, intDumps, hd], hso.1, hso.2.1, hso.2.2.1,
        hso.2.2.2⟩
    | negSucc m =>
      exact ⟨'-', natDumps (m + 1), by simp [Json.dumps, intDumps], by decide, by decide,
        by decide, by decide⟩
  | str s =>
    exact ⟨'"', jsonEscape s ++ ['"'], by simp [Json.dumps], by decide, by decide,
      by decide, by decide⟩
  | arr l =>
    exact ⟨'[', l.dumpsArr, by simp [Json.dumps], by decide, by decide, by decide,
      by decide⟩
  | obj o =>
    exact ⟨'\x7b', o.dumpsObj, by simp [Json.dumps], by decide, by decide, by decide,
      by decide⟩

mutual

theorem parseVal_dumps (j : Json) (fuel : Nat) (rest : List Char)
    (hf : j.fuelSize ≤ fuel) (hr : NumSafe rest) :
    parseVal fuel (j.dumps ++ rest) = some (j, rest) := by
  cases fuel with
  | zero =>
    have hp := fuelSize_pos j
    omega
  | succ f =>
    cases j with
    | null =>
      rw [show Json.dumps Json.null = ['n', 'u', 'l', 'l'] from by decide]
      simp only [List.cons_append, List.nil_append, parseVal]
      rw [skipWs_cons_false _ _ (by decide)]
      simp
    | boolean b =>
      cases b with
      | false =>
        rw [show Json.dumps (Json.boolean false) = ['f', 'a', 'l', 's', 'e'] from by decide]
        simp only [List.cons_append, List.nil_append, parseVal]
        rw [skipWs_cons_false _ _ (by decide)]
        simp
      | true =>
        rw [show Json.dumps (Json.boolean true) = ['t', 'r', 'u', 'e'] from by decide]
        simp only [List.cons_append, List.nil_append, parseVal]
        rw [skipWs_cons_false _ _ (by decide)]
        simp
    | num i =>
      have hpn := parseNum_intDumps i rest hr
      have hdi : Json.dumps (Json.num i) = intDumps i := by simp [Json.dumps]
      rw [hdi]
      cases i with
      | ofNat n =>
        obtain ⟨d, t, hd, hdig⟩ := natDumps_head_digit n
        have hdisp := isDigit_dispatch d hdig
        have hso := isDigit_startOk d hdig
        rw [show intDumps (Int.ofNat n) = natDumps n from rfl] at hpn ⊢
        rw [hd, List.cons_append]
        simp only [parseVal]
        rw [skipWs_cons_false _ _ hso.1]
        simp only [hdisp.1, hdisp.2.1, hdisp.2.2.1, hdisp.2.2.2.1, hdisp.2.2.2.2.1,
          hdisp.2.2.2.2.2, if_false]
        rw [← List.cons_append, ← hd]
        exact hpn
      | negSucc m =>
        rw [show intDumps (Int.negSucc m) = '-' :: natDumps (m + 1) from rfl] at hpn ⊢
        rw [List.cons_append]
        simp only [parseVal]
        rw [skipWs_cons_false _ _ (by decide)]
        simp only [show ('-' : Char) ≠ '"' from by decide,
          show ('-' : Char) ≠ '[' from by decide, show ('-' : Char) ≠ '\x7b' from by decide,
          show ('-' : Char) ≠ 'n' from by decide, show ('-' : Char) ≠ 't' from by decide,
          show ('-' : Char) ≠ 'f' from by decide, if_false]
        rw [← List.cons_append]
        exact hpn
    | str s =>
      have hds : Json.dumps (Json.str s) = '"' :: (jsonEscape s ++ ['"']) := by
        simp [Json.dumps]
      rw [hds, List.cons_append, List.append_assoc]
      simp only [List.cons_append, List.nil_append]
      simp only [parseVal]
      rw [skipWs_cons_false _ _ (by decide)]
      simp [parseStr_escape s rest]
    | arr l =>
      have hda : Json.dumps (Json.arr l) = '[' :: l.dumpsArr := by simp [Json.dumps]
      rw [hda, List.cons_append]
      simp only [parseVal]
      rw [skipWs_cons_false _ _ (by decide)]
      simp only [show ('[' : Char) ≠ '"' from by decide, if_false, eq_self_iff_true,
        if_true]
      simp only [Json.fuelSize] at hf
      cases f with
      | zero => omega
      | succ f2 =>
        simp only [parseArrBody]
        cases l with
        | nil =>
          rw [show JsonList.dumpsArr JsonList.nil = [']'] from by decide,
            List.cons_append, List.nil_append]
          rw [skipWs_cons_false _ _ (by decide)]
          simp
        | cons j2 tl2 =>
          obtain ⟨c0, t0, hd0, hws0, hbr0, hbrace0, hcomma0⟩ := dumps_startOk j2
          obtain ⟨Y, hY⟩ : ∃ Y, JsonList.dumpsArr (JsonList.cons j2 tl2) =
              j2.dumps ++ Y := by
            cases tl2 with
            | nil => exact ⟨[']'], by simp [JsonList.dumpsArr]⟩
            | cons j3 tl3 =>
              exact ⟨',' :: ' ' :: (JsonList.cons j3 tl3).dumpsArr,
                by simp [JsonList.dumpsArr]⟩
          rw [hY, List.append_assoc, hd0, List.cons_append]
          rw [skipWs_cons_false _ _ hws0]
          split
          · rename_i r heq
            rw [List.cons_eq_cons] at heq
            exact absurd heq.1 hbr0
          · rw [← List.cons_append, ← hd0, ← List.append_assoc, ← hY]
            rw [parseArrItems_dumps j2 tl2 f2 rest
              (by simp only [JsonList.fuelSizeArr] at hf ⊢; omega)]
            rfl
    | obj o =>
      have hdo : Json.dumps (Json.obj o) = '\x7b' :: o.dumpsObj := by simp [Json.dumps]
      rw [hdo, List.cons_append]
      simp only [parseVal]
      rw [skipWs_cons_false _ _ (by decide)]
      simp only [show ('\x7b' : Char) ≠ '"' from by decide,
        show ('\x7b' : Char) ≠ '[' from by decide, if_false, eq_self_iff_true, if_true]
      simp only [Json.fuelSize] at hf
      cases f with
      | zero => omega
      | succ f2 =>
        simp only [parseObjBody]
        cases o with
        | onil =>
          rw [show JsonObj.dumpsObj JsonObj.onil = ['\x7d'] from by decide,
            List.cons_append, List.nil_append]
          rw [skipWs_cons_false _ _ (by decide)]
          simp
        | ocons k v tl =>
          obtain ⟨Y, hY⟩ : ∃ Y, JsonObj.dumpsObj (JsonObj.ocons k v tl) =
              '"' :: (jsonEscape k ++ '"' :: ':' :: ' ' :: v.dumps) ++ Y := by
            cases tl with
            | onil => exact ⟨['\x7d'], by simp [JsonObj.dumpsObj]⟩
            | ocons k2 v2 tl2 =>
              exact ⟨',' :: ' ' :: (JsonObj.ocons k2 v2 tl2).dumpsObj,
                by simp [JsonObj.dumpsObj]⟩
          rw [hY, List.append_assoc, List.cons_append]
          rw [skipWs_cons_false _ _ (by decide)]
          split
          · rename_i r heq
            rw [List.cons_eq_cons] at heq
            exact absurd heq.1 (by decide)
          · rw [← List.cons_append, ← List.append_assoc, ← hY]
            rw [parseObjItems_dumps k v tl f2 rest
              (by simp only [JsonObj.fuelSizeObj] at hf ⊢; omega)]
            rfl
termination_by fuel

theorem parseArrItems_dumps (j : Json) (tl : JsonList) (fuel : Nat) (rest : List Char)
    (hf : (JsonList.cons j tl).fuelSizeArr ≤ fuel) :
    parseArrItems fuel (JsonList.dumpsArr (JsonList.cons j tl) ++ rest) =
      some (JsonList.cons j tl, rest) := by
  simp only [JsonList.fuelSizeArr] at hf
  cases fuel with
  | zero =>
    have hp := fuelSize_pos j
    omega
  | succ f =>
    simp only [parseArrItems]
    cases tl with
    | nil =>
      rw [show JsonList.dumpsArr (JsonList.cons j JsonList.nil) = j.dumps ++ [']']
          from by simp [JsonList.dumpsArr]]
      rw [List.append_assoc, List.cons_append, List.nil_append]
      rw [parseVal_dumps j f (']' :: rest) (by omega)
        (numSafe_of _ _ (by decide) (by decide) (by decide) (by decide))]
      simp [skipWs, List.dropWhile_cons, jsonWsChar]
    | cons j3 tl3 =>
      rw [show JsonList.dumpsArr (JsonList.cons j (JsonList.cons j3 tl3)) =
          j.dumps ++ ',' :: ' ' :: (JsonList.cons j3 tl3).dumpsArr
          from by simp [JsonList.dumpsArr]]
      rw [List.append_assoc, List.cons_append]
      rw [parseVal_dumps j f _ (by omega)
        (numSafe_of _ _ (by decide) (by decide) (by decide) (by decide))]
      have hwsp : parseArrItems f (' ' :: (JsonList.dumpsArr (JsonList.cons j3 tl3) ++
          rest)) = parseArrItems f (JsonList.dumpsArr (JsonList.cons j3 tl3) ++ rest) :=
        parseArrItems_ws ' ' (by decide) f _
      have hitems := parseArrItems_dumps j3 tl3 f rest (by
        simp only [JsonList.fuelSizeArr] at hf ⊢
        omega)
      simp [skipWs, List.dropWhile_cons, jsonWsChar, hwsp, hitems]

termination_by fuel

theorem parseObjItems_dumps (k : List Char) (v : Json) (tl : JsonObj) (fuel : Nat)
    (rest : List Char) (hf : (JsonObj.ocons k v tl).fuelSizeObj ≤ fuel) :
    parseObjItems fuel (JsonObj.dumpsObj (JsonObj.ocons k v tl) ++ rest) =
      some (JsonObj.ocons k v tl, rest) := by
  simp only [JsonObj.fuelSizeObj] at hf
  cases fuel with
  | zero =>
    have hp := fuelSize_pos v
    omega
  | succ f =>
    simp only [parseObjItems]
    cases tl with
    | onil =>
      rw [show JsonObj.dumpsObj (JsonObj.ocons k v JsonObj.onil) =
          '"' :: (jsonEscape k ++ '"' :: ':' :: ' ' :: v.dumps) ++ ['\x7d']
          from by simp [JsonObj.dumpsObj]]
      simp only [List.append_assoc, List.cons_append, List.nil_append]
      rw [skipWs_cons_false _ _ (by decide)]
      have hk := parseStr_escape k (':' :: ' ' :: (v.dumps ++ '\x7d' :: rest))
      have hv := parseVal_dumps v f ('\x7d' :: rest) (by omega)
        (numSafe_of _ _ (by decide) (by decide) (by decide) (by decide))
      have hw := parseVal_ws ' ' (by decide) f (v.dumps ++ '\x7d' :: rest)
      simp [skipWs, List.dropWhile_cons, jsonWsChar, hk, hw, hv]
    | ocons k2 v2 tl2 =>
      rw [show JsonObj.dumpsObj (JsonObj.ocons k v (JsonObj.ocons k2 v2 tl2)) =
          '"' :: (jsonEscape k ++ '"' :: ':' :: ' ' :: v.dumps) ++
            ',' :: ' ' :: (JsonObj.ocons k2 v2 tl2).dumpsObj
          from by simp [JsonObj.dumpsObj]]
      simp only [List.append_assoc, List.cons_append, List.nil_append]
      rw [skipWs_cons_false _ _ (by decide)]
      have hk := parseStr_escape k (':' :: ' ' :: (v.dumps ++ ',' :: ' ' ::
        (JsonObj.dumpsObj (JsonObj.ocons k2 v2 tl2) ++ rest)))
      have hv := parseVal_dumps v f (',' :: ' ' ::
          (JsonObj.dumpsObj (JsonObj.ocons k2 v2 tl2) ++ rest)) (by omega)
        (numSafe_of _ _ (by decide) (by decide) (by decide) (by decide))
      have hw := parseVal_ws ' ' (by decide) f (v.dumps ++ ',' :: ' ' ::
        (JsonObj.dumpsObj (JsonObj.ocons k2 v2 tl2) ++ rest))
      have hwsp : parseObjItems f (' ' :: (JsonObj.dumpsObj (JsonObj.ocons k2 v2 tl2) ++
          rest)) = parseObjItems f (JsonObj.dumpsObj (JsonObj.ocons k2 v2 tl2) ++ rest) :=
        parseObjItems_ws ' ' (by decide) f _
      have hitems := parseObjItems_dumps k2 v2 tl2 f rest (by
        simp only [JsonObj.fuelSizeObj] at hf ⊢
        omega)
      simp [skipWs, List.dropWhile_cons, jsonWsChar, hk, hw, hv, hwsp, hitems]
termination_by fuel

end

/-! ## Fuel sufficiency: the serialization of a value is long enough that the
fuel loads derives from the input length covers its parse. -/

mutual

theorem Json.fuelSize_le_dumps : ∀ j : Json, j.fuelSize ≤ 2 * (Json.dumps j).length
  | .null => by decide
  | .boolean true => by decide
  | .boolean false => by decide
  | .num i => by
    have h1 : intDumps i ≠ [] := by
      cases i with
      | ofNat n => exact natDumps_ne_nil n
      | negSucc m => simp [intDumps]
    have h2 := List.length_pos.mpr h1
    rw [show Json.dumps (Json.num i) = intDumps i from by simp [Json.dumps]]
    simp only [Json.fuelSize]
    omega
  | .str s => by
    rw [show Json.dumps (Json.str s) = '"' :: (jsonEscape s ++ ['"']) from by
      simp [Json.dumps]]
    simp only [Json.fuelSize, List.length_cons]
    omega
  | .arr l => by
    have ih := JsonList.fuelSizeArr_le_dumps l
    rw [show Json.dumps (Json.arr l) = '[' :: JsonList.dumpsArr l from by
      simp [Json.dumps]]
    simp only [Json.fuelSize, List.length_cons]
    omega
  | .obj o => by
    have ih := JsonObj.fuelSizeObj_le_dumps o
    rw [show Json.dumps (Json.obj o) = '\x7b' :: JsonObj.dumpsObj o from by
      simp [Json.dumps]]
    simp only [Json.fuelSize, List.length_cons]
    omega

theorem JsonList.fuelSizeArr_le_dumps :
    ∀ l : JsonList, l.fuelSizeArr ≤ 2 * (JsonList.dumpsArr l).length
  | .nil => by decide
  | .cons j .nil => by
    have ih := Json.fuelSize_le_dumps j
    rw [show JsonList.dumpsArr (.cons j .nil) = Json.dumps j ++ [']'] from by
      simp [JsonList.dumpsArr]]
    simp only [JsonList.fuelSizeArr, List.length_append, List.length_cons,
      List.length_nil]
    omega
  | .cons j (.cons j2 tl) => by
    have ih1 := Json.fuelSize_le_dumps j
    have ih2 := JsonList.fuelSizeArr_le_dumps (.cons j2 tl)
    simp only [JsonList.fuelSizeArr] at ih2
    rw [show JsonList.dumpsArr (.cons j (.cons j2 tl)) =
        Json.dumps j ++ ',' :: ' ' :: JsonList.dumpsArr (.cons j2 tl) from by
      simp [JsonList.dumpsArr]]
    simp only [JsonList.fuelSizeArr, List.length_append, List.length_cons]
    omega

theorem JsonObj.fuelSizeObj_le_dumps :
    ∀ o : JsonObj, o.fuelSizeObj ≤ 2 * (JsonObj.dumpsObj o).length
  | .onil => by decide
  | .ocons k v .onil => by
    have ih := Json.fuelSize_le_dumps v
    rw [show JsonObj.dumpsObj (.ocons k v .onil) =
        '"' :: (jsonEscape k ++ '"' :: ':' :: ' ' :: Json.dumps v) ++ ['\x7d'] from by
      simp [JsonObj.dumpsObj]]
    simp only [JsonObj.fuelSizeObj, List.length_append, List.length_cons,
      List.length_nil]
    omega
  | .ocons k v (.ocons k2 v2 tl) => by
    have ih1 := Json.fuelSize_le_dumps v
    have ih2 := JsonObj.fuelSizeObj_le_dumps (.ocons k2 v2 tl)
    simp only [JsonObj.fuelSizeObj] at ih2
    rw [show JsonObj.dumpsObj (.ocons k v (.ocons k2 v2 tl)) =
        '"' :: (jsonEscape k ++ '"' :: ':' :: ' ' :: Json.dumps v) ++
          ',' :: ' ' :: JsonObj.dumpsObj (.ocons k2 v2 tl) from by
      simp [JsonObj.dumpsObj]]
    simp only [JsonObj.fuelSizeObj, List.length_append, List.length_cons]
    omega

end

/-- Parsing the serialization of any value with the fuel loads supplies
recovers the value exactly. -/
theorem loads_dumps (j : Json) : loads (Json.dumps j) = some j := by
  unfold loads
  have hb : j.fuelSize ≤ 4 * (Json.dumps j).length + 4 := by
    have := Json.fuelSize_le_dumps j
    omega
  have h := parseVal_dumps j (4 * (Json.dumps j).length + 4) [] hb numSafe_nil
  rw [List.append_nil] at h
  rw [h]
  rfl

/-! ## The serialization stays on one line and carries no stray whitespace
at either end, so the line-based reader recovers it verbatim. -/

theorem hexDigitChar_ne_nl (n : Nat) (h : n < 16) : hexDigitChar n ≠ '\n' := by
  interval_cases n <;> decide

theorem escChar_no_nl (c : Char) : '\n' ∉ escChar c := by
  unfold escChar
  split_ifs with h1 h2 h3 h4 h5 h6 h7 h8
  · decide
  · decide
  · decide
  · decide
  · decide
  · decide
  · decide
  · intro hm
    simp only [List.mem_cons, List.not_mem_nil, or_false] at hm
    rcases hm with h | h | h | h | h | h
    · exact absurd h (by decide)
    · exact absurd h (by decide)
    · exact absurd h (by decide)
    · exact absurd h (by decide)
    · exact hexDigitChar_ne_nl (c.toNat / 16) (by omega) h.symm
    · exact hexDigitChar_ne_nl (c.toNat % 16) (by omega) h.symm
  · intro hm
    simp only [List.mem_cons, List.not_mem_nil, or_false] at hm
    exact h3 hm.symm

theorem jsonEscape_no_nl (s : List Char) : '\n' ∉ jsonEscape s := by
  unfold jsonEscape
  intro hm
  rw [List.mem_flatMap] at hm
  obtain ⟨c, _, hc⟩ := hm
  exact escChar_no_nl c hc

theorem natDumps_no_nl (n : Nat) : '\n' ∉ natDumps n := by
  intro hm
  exact absurd (natDumps_digits n '\n' hm) (by decide)

theorem intDumps_no_nl (i : Int) : '\n' ∉ intDumps i := by
  cases i with
  | ofNat n => exact natDumps_no_nl n
  | negSucc m =>
    intro hm
    rcases List.mem_cons.mp hm with h | h
    · exact absurd h (by decide)
    · exact natDumps_no_nl (m + 1) h

mutual

theorem Json.dumps_no_nl : ∀ j : Json, '\n' ∉ Json.dumps j
  | .null => by decide
  | .boolean true => by decide
  | .boolean false => by decide
  | .num i => by
    rw [show Json.dumps (Json.num i) = intDumps i from by simp [Json.dumps]]
    exact intDumps_no_nl i
  | .str s => by
    rw [show Json.dumps (Json.str s) = '"' :: (jsonEscape s ++ ['"']) from by
      simp [Json.dumps]]
    intro hm
    rcases List.mem_cons.mp hm with h | h
    · exact absurd h (by decide)
    · rcases List.mem_append.mp h with h | h
      · exact jsonEscape_no_nl s h
      · exact absurd h (by decide)
  | .arr l => by
    rw [show Json.dumps (Json.arr l) = '[' :: JsonList.dumpsArr l from by
      simp [Json.dumps]]
    intro hm
    rcases List.mem_cons.mp hm with h | h
    · exact absurd h (by decide)
    · exact JsonList.dumpsArr_no_nl l h
  | .obj o => by
    rw [show Json.dumps (Json.obj o) = '\x7b' :: JsonObj.dumpsObj o from by
      simp [Json.dumps]]
    intro hm
    rcases List.mem_cons.mp hm with h | h
    · exact absurd h (by decide)
    · exact JsonObj.dumpsObj_no_nl o h

theorem JsonList.dumpsArr_no_nl : ∀ l : JsonList, '\n' ∉ JsonList.dumpsArr l
  | .nil => by decide
  | .cons j .nil => by
    rw [show JsonList.dumpsArr (.cons j .nil) = Json.dumps j ++ [']'] from by
      simp [JsonList.dumpsArr]]
    intro hm
    rcases List.mem_append.mp hm with h | h
    · exact Json.dumps_no_nl j h
    · exact absurd h (by decide)
  | .cons j (.cons j2 tl) => by
    rw [show JsonList.dumpsArr (.cons j (.cons j2 tl)) =
        Json.dumps j ++ ',' :: ' ' :: JsonList.dumpsArr (.cons j2 tl) from by
      simp [JsonList.dumpsArr]]
    intro hm
    rcases List.mem_append.mp hm with h | h
    · exact Json.dumps_no_nl j h
    · rcases List.mem_cons.mp h with h | h
      · exact absurd h (by decide)
      · rcases List.mem_cons.mp h with h | h
        · exact absurd h (by decide)
        · exact JsonList.dumpsArr_no_nl (.cons j2 tl) h

theorem JsonObj.dumpsObj_no_nl : ∀ o : JsonObj, '\n' ∉ JsonObj.dumpsObj o
  | .onil => by decide
  | .ocons k v .onil => by
    rw [show JsonObj.dumpsObj (.ocons k v .onil) =
        '"' :: (jsonEscape k ++ '"' :: ':' :: ' ' :: Json.dumps v) ++ ['\x7d'] from by
      simp [JsonObj.dumpsObj]]
    intro hm
    rcases List.mem_append.mp hm with h | h
    · rcases List.mem_cons.mp h with h | h
      · exact absurd h (by decide)
      · rcases List.mem_append.mp h with h | h
        · exact jsonEscape_no_nl k h
        · rcases List.mem_cons.mp h with h | h
          · exact absurd h (by decide)
          · rcases List.mem_cons.mp h with h | h
            · exact absurd h (by decide)
            · rcases List.mem_cons.mp h with h | h
              · exact absurd h (by decide)
              · exact Json.dumps_no_nl v h
    · exact absurd h (by decide)
  | .ocons k v (.ocons k2 v2 tl) => by
    rw [show JsonObj.dumpsObj (.ocons k v (.ocons k2 v2 tl)) =
        '"' :: (jsonEscape k ++ '"' :: ':' :: ' ' :: Json.dumps v) ++
          ',' :: ' ' :: JsonObj.dumpsObj (.ocons k2 v2 tl) from by
      simp [JsonObj.dumpsObj]]
    intro hm
    rcases List.mem_append.mp hm with h | h
    · rcases List.mem_cons.mp h with h | h
      · exact absurd h (by decide)
      · rcases List.mem_append.mp h with h | h
        · exact jsonEscape_no_nl k h
        · rcases List.mem_cons.mp h with h | h
          · exact absurd h (by decide)
          · rcases List.mem_cons.mp h with h | h
            · exact absurd h (by decide)
            · rcases List.mem_cons.mp h with h | h
              · exact absurd h (by decide)
              · exact Json.dumps_no_nl v h
    · rcases List.mem_cons.mp h with h | h
      · exact absurd h (by decide)
      · rcases List.mem_cons.mp h with h | h
        · exact absurd h (by decide)
        · exact JsonObj.dumpsObj_no_nl (.ocons k2 v2 tl) h

end

theorem mem_of_getLast_some (l : List Char) (d : Char) (h : l.getLast? = some d) :
    d ∈ l := by
  cases l with
  | nil => exact Option.noConfusion h
  | cons a t =>
    have h2 : (a :: t).getLast? = some ((a :: t).getLast (List.cons_ne_nil a t)) :=
      List.getLast?_eq_getLast _ _
    rw [h] at h2
    rw [Option.some.inj h2]
    exact List.getLast_mem _

theorem ne_nil_of_getLast_some (l : List Char) (d : Char)
    (h : l.getLast? = some d) : l ≠ [] := by
  intro hl
  rw [hl] at h
  exact Option.noConfusion h

theorem dumpsArr_getLast : ∀ l : JsonList, (JsonList.dumpsArr l).getLast? = some ']'
  | .nil => by decide
  | .cons j .nil => by
    rw [show JsonList.dumpsArr (.cons j .nil) = Json.dumps j ++ [']'] from by
      simp [JsonList.dumpsArr]]
    rw [← suffix_getLast? [']'] _ ⟨Json.dumps j, rfl⟩ (by decide)]
    rfl
  | .cons j (.cons j2 tl) => by
    have ih := dumpsArr_getLast (.cons j2 tl)
    have hne := ne_nil_of_getLast_some _ _ ih
    rw [show JsonList.dumpsArr (.cons j (.cons j2 tl)) =
        (Json.dumps j ++ [',', ' ']) ++ JsonList.dumpsArr (.cons j2 tl) from by
      simp [JsonList.dumpsArr]]
    rw [← suffix_getLast? _ _ ⟨Json.dumps j ++ [',', ' '], rfl⟩ hne]
    exact ih

theorem dumpsObj_getLast : ∀ o : JsonObj, (JsonObj.dumpsObj o).getLast? = some '\x7d'
  | .onil => by decide
  | .ocons k v .onil => by
    rw [show JsonObj.dumpsObj (.ocons k v .onil) =
        '"' :: (jsonEscape k ++ '"' :: ':' :: ' ' :: Json.dumps v) ++ ['\x7d'] from by
      simp [JsonObj.dumpsObj]]
    rw [← suffix_getLast? ['\x7d'] _ ⟨_, rfl⟩ (by decide)]
    rfl
  | .ocons k v (.ocons k2 v2 tl) => by
    have ih := dumpsObj_getLast (.ocons k2 v2 tl)
    have hne := ne_nil_of_getLast_some _ _ ih
    rw [show JsonObj.dumpsObj (.ocons k v (.ocons k2 v2 tl)) =
        ('"' :: (jsonEscape k ++ '"' :: ':' :: ' ' :: Json.dumps v) ++ [',', ' ']) ++
          JsonObj.dumpsObj (.ocons k2 v2 tl) from by
      simp [JsonObj.dumpsObj]]
    rw [← suffix_getLast? _ _ ⟨_, rfl⟩ hne]
    exact ih

theorem natDumps_getLast_digit (n : Nat) :
    ∃ d, (natDumps n).getLast? = some d ∧ isDigitCh d = true := by
  cases hl : (natDumps n).getLast? with
  | none => exact absurd (List.getLast?_eq_none_iff.mp hl) (natDumps_ne_nil n)
  | some d => exact ⟨d, rfl, natDumps_digits n d (mem_of_getLast_some _ _ hl)⟩

theorem intDumps_getLast_ok (i : Int) :
    ∃ d, (intDumps i).getLast? = some d ∧ pySpace d = false := by
  cases i with
  | ofNat n =>
    obtain ⟨d, hd, hdig⟩ := natDumps_getLast_digit n
    exact ⟨d, hd, isDigit_pySpace d hdig⟩
  | negSucc m =>
    obtain ⟨d, hd, hdig⟩ := natDumps_getLast_digit (m + 1)
    refine ⟨d, ?_, isDigit_pySpace d hdig⟩
    rw [show intDumps (Int.negSucc m) = ['-'] ++ natDumps (m + 1) from by
      simp [intDumps]]
    rw [← suffix_getLast? _ _ ⟨['-'], rfl⟩ (natDumps_ne_nil (m + 1))]
    exact hd

theorem dumps_head_ok (j : Json) :
    ∃ c t, Json.dumps j = c :: t ∧ pySpace c = false := by
  cases j with
  | null => exact ⟨'n', ['u', 'l', 'l'], by decide, by decide⟩
  | boolean b =>
    cases b with
    | true => exact ⟨'t', ['r', 'u', 'e'], by decide, by decide⟩
    | false => exact ⟨'f', ['a', 'l', 's', 'e'], by decide, by decide⟩
  | num i =>
    cases i with
    | ofNat n =>
      obtain ⟨d, t, hd, hdig⟩ := natDumps_head_digit n
      exact ⟨d, t, by simp [Json.dumps, intDumps, hd], isDigit_pySpace d hdig⟩
    | negSucc m =>
      exact ⟨'-', natDumps (m + 1), by simp [Json.dumps, intDumps], by decide⟩
  | str s => exact ⟨'"', jsonEscape s ++ ['"'], by simp [Json.dumps], by decide⟩
  | arr l => exact ⟨'[', l.dumpsArr, by simp [Json.dumps], by decide⟩
  | obj o => exact ⟨'\x7b', o.dumpsObj, by simp [Json.dumps], by decide⟩

theorem dumps_getLast_ok (j : Json) :
    ∃ c, (Json.dumps j).getLast? = some c ∧ pySpace c = false := by
  cases j with
  | null => exact ⟨'l', by decide, by decide⟩
  | boolean b =>
    cases b with
    | true => exact ⟨'e', by decide, by decide⟩
    | false => exact ⟨'e', by decide, by decide⟩
  | num i =>
    obtain ⟨d, hd, hp⟩ := intDumps_getLast_ok i
    refine ⟨d, ?_, hp⟩
    rw [show Json.dumps (Json.num i) = intDumps i from by simp [Json.dumps]]
    exact hd
  | str s =>
    refine ⟨'"', ?_, by decide⟩
    rw [show Json.dumps (Json.str s) = ('"' :: jsonEscape s) ++ ['"'] from by
      simp [Json.dumps]]
    rw [← suffix_getLast? ['"'] _ ⟨_, rfl⟩ (by decide)]
    rfl
  | arr l =>
    have h := dumpsArr_getLast l
    refine ⟨']', ?_, by decide⟩
    rw [show Json.dumps (Json.arr l) = ['['] ++ JsonList.dumpsArr l from by
      simp [Json.dumps]]
    rw [← suffix_getLast? _ _ ⟨['['], rfl⟩ (ne_nil_of_getLast_some _ _ h)]
    exact h
  | obj o =>
    have h := dumpsObj_getLast o
    refine ⟨'\x7d', ?_, by decide⟩
    rw [show Json.dumps (Json.obj o) = ['\x7b'] ++ JsonObj.dumpsObj o from by
      simp [Json.dumps]]
    rw [← suffix_getLast? _ _ ⟨['\x7b'], rfl⟩ (ne_nil_of_getLast_some _ _ h)]
    exact h

theorem pyStripL_noop (l : List Char)
    (h1 : ∀ c, l.head? = some c → pySpace c = false)
    (h2 : ∀ c, l.getLast? = some c → pySpace c = false) :
    pyStripL l = l := by
  unfold pyStripL
  cases l with
  | nil => rfl
  | cons a t =>
    have ha : pySpace a = false := h1 a rfl
    rw [List.dropWhile_cons, ha]
    simp only [Bool.false_eq_true, if_false]
    cases hr : (a :: t).reverse with
    | nil => exact absurd hr (by simp)
    | cons b r =>
      have hb : pySpace b = false := by
        apply h2
        rw [← List.head?_reverse, hr]
        rfl
      rw [List.dropWhile_cons, hb]
      simp only [Bool.false_eq_true, if_false]
      rw [← hr, List.reverse_reverse]

theorem pyStripL_dumps (j : Json) : pyStripL (Json.dumps j) = Json.dumps j := by
  apply pyStripL_noop
  · intro c hc
    obtain ⟨c0, t0, he, hp⟩ := dumps_head_ok j
    rw [he] at hc
    rw [← Option.some.inj hc]
    exact hp
  · intro c hc
    obtain ⟨c0, hl, hp⟩ := dumps_getLast_ok j
    rw [hl] at hc
    rw [← Option.some.inj hc]
    exact hp

/-! ## Line structure of the serialized store -/

theorem splitNl_append (A B : List Char) (h : '\n' ∉ A) :
    splitNl (A ++ '\n' :: B) = A :: splitNl B := by
  induction A with
  | nil => simp [splitNl]
  | cons a t ih =>
    have ha : ¬(a = '\n') := fun hh => h (hh ▸ List.mem_cons_self _ _)
    have ht : '\n' ∉ t := fun hh => h (List.mem_cons_of_mem _ hh)
    rw [List.cons_append]
    simp only [splitNl]
    rw [if_neg ha, ih ht]

theorem serializeItems_cons (j : Json) (tl : List Json) :
    serializeItems (j :: tl) = Json.dumps j ++ '\n' :: serializeItems tl := by
  simp [serializeItems]

theorem read_serialize_append (items : List Json) (R : List Char) :
    read_jsonl (some (serializeItems items ++ R)) = items ++ read_jsonl (some R) := by
  induction items with
  | nil => simp [serializeItems]
  | cons j tl ih =>
    simp only [serializeItems_cons, List.append_assoc, List.cons_append]
    simp only [read_jsonl] at ih ⊢
    rw [splitNl_append _ _ (Json.dumps_no_nl j), List.filterMap_cons]
    have hne : (Json.dumps j).isEmpty = false := by
      obtain ⟨c0, t0, he, _⟩ := dumps_head_ok j
      rw [he]
      rfl
    simp only [pyStripL_dumps, hne, Bool.false_eq_true, if_false, loads_dumps, ih,
      List.cons_append]

theorem read_bad_line (bad R : List Char) (hnl : '\n' ∉ bad)
    (hbad : loads (pyStripL bad) = none) :
    read_jsonl (some (bad ++ '\n' :: R)) = read_jsonl (some R) := by
  simp only [read_jsonl]
  rw [splitNl_append _ _ hnl, List.filterMap_cons]
  by_cases he : (pyStripL bad).isEmpty = true
  · simp [he]
  · simp [he, hbad]

theorem read_jsonl_empty : read_jsonl (some []) = [] := rfl

/-- C1: the save-then-load round trip is exact.  write_jsonl serializes every
record verbatim with json.dumps and read_jsonl parses each line back, so
loading the file produced by saving any collection yields the collection
itself, with no turn-field normalization performed anywhere in the save
path (amended from the claim, refuted by roundtrip_turn_fields_cex, that
entries of messages are normalized to exactly the fields role and content). -/
theorem load_save_roundtrip (items : List Json) :
    read_jsonl (some (serializeItems items)) = items := by
  have h := read_serialize_append items []
  rw [List.append_nil] at h
  rw [h, read_jsonl_empty, List.append_nil]

/-- C4: loading fails soft.  A missing file loads as the empty collection,
and a malformed line among well-formed lines is silently discarded: the
file holding the serializations of xs, then one line that does not parse
as JSON, then the serializations of ys, loads exactly xs ++ ys. -/
theorem read_jsonl_fails_soft (xs ys : List Json) (bad : List Char)
    (hnl : '\n' ∉ bad) (hbad : loads (pyStripL bad) = none) :
    read_jsonl none = [] ∧
      read_jsonl (some (serializeItems xs ++ (bad ++ '\n' :: serializeItems ys))) =
        xs ++ ys := by
  refine ⟨rfl, ?_⟩
  rw [read_serialize_append, read_bad_line bad _ hnl hbad]
  have h := read_serialize_append ys []
  rw [List.append_nil] at h
  rw [h, read_jsonl_empty, List.append_nil]

theorem read_jsonl_fails_soft_witness :
    ('\n' ∉ "\x7boops".data ∧ loads (pyStripL "\x7boops".data) = none) ∧
      read_jsonl none = [] ∧
      read_jsonl (some (serializeItems [Json.null] ++ ("\x7boops".data ++ '\n' ::
        serializeItems [Json.boolean true]))) = [Json.null] ++ [Json.boolean true] :=
  ⟨⟨by decide, by decide⟩,
    read_jsonl_fails_soft [Json.null] [Json.boolean true] "\x7boops".data
      (by decide) (by decide)⟩

end Gallery
